import Mathlib

/-!
# forge: the template-materialization pipeline

A shallow embedding of `scaffolder/scaffolder.go` and `main.go`.

* Go strings and byte slices are byte sequences (`Bytes`); the conversions between the
  two are the identity.
* The file system is a finite map from resolved paths to nodes (`FS`); the functions of
  package `os` used by the source are modelled on it, without permissions, symbolic links
  or devices: the model has no failure such as a full disk, so what is proved of a
  successful run is proved of the runs whose system calls behave as modelled.
* External processes (`cmd.Run`) are a parameter of the environment (`Env.run`); every
  invocation is recorded in the state.
* `CreateProject` is instrumented with the list of the steps it calls.
-/

namespace Forge

/-! ## Bytes -/

/-- Byte sequence: the model of a Go `string` and of a Go `[]byte`. -/
abbrev Bytes := List Nat

/-- The bytes of an ASCII text. -/
def lit (s : String) : Bytes := s.data.map Char.toNat

/-- Source `projToken`: the sixteen bytes of the text written
open brace, open brace, `project_name`, close brace, close brace. -/
def projToken : Bytes :=
  [123, 123, 112, 114, 111, 106, 101, 99, 116, 95, 110, 97, 109, 101, 125, 125]

/-- Source `descToken`: the braces around `project_description`. -/
def descToken : Bytes :=
  [123, 123, 112, 114, 111, 106, 101, 99, 116, 95, 100, 101, 115, 99, 114, 105, 112,
    116, 105, 111, 110, 125, 125]

/-- Source `modToken`: the braces around `module_path`. -/
def modToken : Bytes :=
  [123, 123, 109, 111, 100, 117, 108, 101, 95, 112, 97, 116, 104, 125, 125]

/-- Scanner behind `ReplaceAll`: `k` is the number of bytes of the current match still to
be skipped. At a position where `old` starts, `new` is emitted and the match is skipped;
elsewhere the byte is copied. -/
def replaceFrom (old new : Bytes) : Nat → Bytes → Bytes
  | _, [] => []
  | k + 1, _ :: s => replaceFrom old new k s
  | 0, c :: s =>
    if old.isPrefixOf (c :: s) then new ++ replaceFrom old new (old.length - 1) s
    else c :: replaceFrom old new 0 s

/-- Model of Go `bytes.ReplaceAll(s, old, new)` for a non-empty `old`: a copy of `s` with
all non-overlapping instances of `old`, found from the left, replaced by `new`. (For an
empty `old` Go inserts `new` at every rune boundary; the source calls it with the two
token constants only.) -/
def ReplaceAll (s old new : Bytes) : Bytes := replaceFrom old new 0 s

/-- Scanner behind `Count`, with the same skip counter as `replaceFrom`. -/
def countFrom (sep : Bytes) : Nat → Bytes → Nat
  | _, [] => 0
  | k + 1, _ :: s => countFrom sep k s
  | 0, c :: s =>
    if sep.isPrefixOf (c :: s) then countFrom sep (sep.length - 1) s + 1
    else countFrom sep 0 s

/-- Model of Go `bytes.Count(s, sep)` for a non-empty `sep`: the number of
non-overlapping instances of `sep` in `s`, found from the left. -/
def Count (s sep : Bytes) : Nat := countFrom sep 0 s

/-- Source `ReplaceTokenInFile`, lines 197-198: the value of `updatedData` for the file
content `data`. -/
def updatedData (data modPath projName : Bytes) : Bytes :=
  ReplaceAll (ReplaceAll data projToken projName) modToken modPath

/-! ## Paths -/

/-- Resolved path: the components from the root, without empty, dot or dot-dot
components. The root is the empty list. -/
abbrev Path := List Bytes

/-- The pieces of a path text between slashes (byte 47). -/
def splitSlash : Bytes → List Bytes
  | [] => [[]]
  | c :: s =>
    if c = 47 then [] :: splitSlash s
    else
      match splitSlash s with
      | [] => [[c]]
      | w :: ws => (c :: w) :: ws

/-- Lexical cleaning as in Go `path.Clean` of a rooted path, component by component:
an empty or dot component is dropped, a dot-dot component removes the component before
it (none at the root), any other component is appended. -/
def cleanOnto (base : Path) : List Bytes → Path
  | [] => base
  | c :: cs =>
    if c = [] ∨ c = [46] then cleanOnto base cs
    else if c = [46, 46] then cleanOnto base.dropLast cs
    else cleanOnto (base ++ [c]) cs

/-- Model of `path.Join(dir, name)` and `filepath.Join(dir, name)` for a resolved
directory `dir`: the cleaned concatenation. -/
def Join (dir : Path) (name : Bytes) : Path := cleanOnto dir (splitSlash name)

/-- The path a path text denotes for a process whose working directory is `cwd`. -/
def resolve (cwd : Path) (s : Bytes) : Path :=
  if s.head? = some 47 then cleanOnto [] (splitSlash s) else cleanOnto cwd (splitSlash s)

/-- Model of `filepath.Dir` on a resolved path: the parent directory. -/
def Dir (p : Path) : Path := p.dropLast

/-! ## File system -/

/-- Node of the file system: a directory or a regular file with its content. -/
inductive Node
  | dir
  | file (data : Bytes)
  deriving DecidableEq, Repr

/-- File system: the existing paths with their nodes. The root always exists and is not
listed. -/
abbrev FS := List (Path × Node)

/-- Model of `os.Stat`: the node at `p`, `none` when `p` does not exist. -/
def Stat : FS → Path → Option Node
  | [], _ => none
  | (q, n) :: fs, p => if q = p then some n else Stat fs p

/-- Whether `p` is an existing directory. -/
def isDir (fs : FS) (p : Path) : Bool := p = [] ∨ Stat fs p = some Node.dir

/-- The file system with node `n` at `p`. -/
def put (fs : FS) (p : Path) (n : Node) : FS := (p, n) :: fs.filter (fun e => e.1 ≠ p)

/-- Bottom-up recursion of `os.MkdirAll` on the reversed path: an existing directory ends
it, an existing file fails it, a missing path is created after its parent. -/
def mkdirAllRev (fs : FS) : List Bytes → Option FS
  | [] => some fs
  | c :: up =>
    match Stat fs (c :: up).reverse with
    | some Node.dir => some fs
    | some (Node.file _) => none
    | none =>
      match mkdirAllRev fs up with
      | none => none
      | some fs1 => some (put fs1 (c :: up).reverse Node.dir)

/-- Model of `os.MkdirAll(p, os.ModePerm)`; `none` is an error. -/
def MkdirAll (fs : FS) (p : Path) : Option FS := mkdirAllRev fs p.reverse

/-- Model of `os.OpenFile(p, O_WRONLY|O_CREATE|O_TRUNC, ...)` followed by the write of
`data` and `Close` (also `os.WriteFile`): fails on a directory and when the parent is not
a directory. -/
def WriteFile (fs : FS) (p : Path) (data : Bytes) : Option FS :=
  match Stat fs p with
  | some Node.dir => none
  | _ => if p ≠ [] ∧ isDir fs (Dir p) then some (put fs p (Node.file data)) else none

/-- Model of `os.ReadFile`. -/
def ReadFile (fs : FS) (p : Path) : Option Bytes :=
  match Stat fs p with
  | some (Node.file data) => some data
  | _ => none

/-- Model of `os.RemoveAll(p)`: `p` and everything below it is removed; a missing `p` is
no error. -/
def RemoveAll (fs : FS) (p : Path) : FS := fs.filter (fun e => ¬ p <+: e.1)

/-- Whether something exists strictly below `p`. -/
def hasChildren (fs : FS) (p : Path) : Bool := fs.any (fun e => p <+: e.1 ∧ e.1 ≠ p)

/-- An entry at or below `src` is moved to the same place below `dst`. -/
def moveEntry (src dst : Path) (e : Path × Node) : Path × Node :=
  if src <+: e.1 then (dst ++ e.1.drop src.length, e.2) else e

/-- The entries of `fs` with the subtree at `src` moved to `dst`, in the place of what
was at `dst`. -/
def moveTree (fs : FS) (src dst : Path) : FS :=
  (fs.filter (fun e => ¬ dst <+: e.1)).map (moveEntry src dst)

/-- Model of `os.Rename(src, dst)` (rename(2)): `src` must exist, `dst` must not lie
below `src`, the parent of `dst` must be a directory, and an existing `dst` is replaced
only by a node of its kind, a directory only when it is empty. Renaming a path to itself
does nothing. -/
def Rename (fs : FS) (src dst : Path) : Option FS :=
  match Stat fs src with
  | none => none
  | some n =>
    if src = dst then some fs
    else if src <+: dst then none
    else if dst = [] ∨ ¬ isDir fs (Dir dst) then none
    else
      match n, Stat fs dst with
      | _, none => if hasChildren fs dst then none else some (moveTree fs src dst)
      | Node.dir, some Node.dir =>
        if hasChildren fs dst then none else some (moveTree fs src dst)
      | Node.file _, some (Node.file _) =>
        if hasChildren fs dst then none else some (moveTree fs src dst)
      | _, _ => none

/-! ## Environment and state -/

/-- Argument of an external command: a text or a path text kept resolved. -/
inductive Arg
  | text (s : Bytes)
  | path (p : Path)
  deriving DecidableEq, Repr

/-- Model of `exec.Cmd`: program, arguments and working directory (`cmd.Dir`). -/
structure Cmd where
  name : Bytes
  args : List Arg
  dir : Option Path
  deriving DecidableEq, Repr

/-- Model of `exec.Command(name, args...)`. -/
def Command (name : Bytes) (args : List Arg) : Cmd := ⟨name, args, none⟩

/-- Errors, with the chain that `fmt.Errorf` and `%w` build. -/
inductive Error
  | notExist (p : Path)
  | fsError (p : Path)
  | badZip
  | exit (stderr : Bytes)
  | wrap (msg : String) (cause : Error)
  deriving DecidableEq, Repr

/-- Entry of a zip archive as `zip.Reader.File` lists it: `Name`, whether
`FileInfo().IsDir()` holds, and the bytes that `Open` delivers. -/
structure ZipEntry where
  Name : Bytes
  IsDir : Bool
  data : Bytes
  deriving DecidableEq, Repr

/-- The path, relative to the directory of extraction, that the name of an entry
denotes. -/
def relName (f : ZipEntry) : Path := cleanOnto [] (splitSlash f.Name)

/-- What the program does not define: the working directory of the process, the zip
decoder, the name `os.MkdirTemp` picks, and the external programs. -/
structure Env where
  /-- Result of `os.Getwd()`. -/
  cwd : Path
  /-- Decoder of `zip.OpenReader`: the entries of a well-formed archive. -/
  unzipBytes : Bytes → Option (List ZipEntry)
  /-- Directory that `os.MkdirTemp("", "_forge_*")` creates, `none` when it fails. -/
  tempDir : FS → Option Path
  /-- Run of an external command (`cmd.Run()`): its error, if any, and the file system it
  leaves. -/
  run : Cmd → FS → Option Error × FS

/-- State of the program: the file system, the package variables `workDir` and
`projectDir`, and the external commands run so far. -/
structure State where
  fs : FS
  workDir : Path
  projectDir : Bytes
  ran : List Cmd

/-- Source `projectPath`: `path.Join(workDir, projectDir)`. -/
def projectPath (st : State) : Path := Join st.workDir st.projectDir

/-! ## The steps -/

/-- Source `unzip`: the entry `f` is written at `filepath.Join(tmpPath, f.Name)`.
`tmpPath` is `none` when `os.MkdirTemp` failed and left the empty text: `filepath.Join`
ignores it, the joined text is relative to the working directory, and it is empty, which
no system call accepts, when the name is empty too. -/
def unzip (cwd : Path) (f : ZipEntry) (tmpPath : Option Path) (fs : FS) : Option Error × FS :=
  let fpath : Path :=
    match tmpPath with
    | some t => Join t f.Name
    | none => resolve cwd f.Name
  if tmpPath = none ∧ f.Name = [] then (some (Error.notExist []), fs)
  else if f.IsDir then
    match MkdirAll fs fpath with
    | none => (some (Error.fsError fpath), fs)
    | some fs1 => (none, fs1)
  else
    match MkdirAll fs (Dir fpath) with
    | none => (some (Error.wrap "could not create directory" (Error.fsError (Dir fpath))), fs)
    | some fs1 =>
      match WriteFile fs1 fpath f.data with
      | none => (some (Error.wrap "could not open file" (Error.fsError fpath)), fs1)
      | some fs2 => (none, fs2)

/-- Source `ExtractTemplate`, the loop over `zReader.File`: stops at the first entry
that fails. -/
def unzipAll (cwd : Path) (tmpPath : Option Path) : List ZipEntry → FS → Option Error × FS
  | [], fs => (none, fs)
  | f :: rest, fs =>
    match unzip cwd f tmpPath fs with
    | (some e, fs1) => (some (Error.wrap "could not unzip file" e), fs1)
    | (none, fs1) => unzipAll cwd tmpPath rest fs1

/-- Source `ExtractTemplate`. The error of `os.MkdirTemp` is not looked at. -/
def ExtractTemplate (env : Env) (templatePath : Bytes) (st : State) : Option Error × State :=
  let tpl := resolve env.cwd templatePath
  match Stat st.fs tpl with
  | none => (some (Error.wrap "could not find the validTemplate" (Error.notExist tpl)), st)
  | some node =>
    let archive : Option (List ZipEntry) :=
      match node with
      | Node.file bytes => env.unzipBytes bytes
      | Node.dir => none
    match archive with
    | none => (some (Error.wrap "could not open validTemplate" Error.badZip), st)
    | some files =>
      let tmpPath := env.tempDir st.fs
      let fs0 : FS :=
        match tmpPath with
        | some t => put st.fs t Node.dir
        | none => st.fs
      match unzipAll env.cwd tmpPath files fs0 with
      | (some e, fs1) => (some e, { st with fs := fs1 })
      | (none, fs1) =>
        let renamed : Option FS :=
          match tmpPath with
          | some t => Rename fs1 t (projectPath st)
          | none => none
        match renamed with
        | none =>
          (some (Error.wrap "could not rename directory" (Error.fsError (projectPath st))),
            { st with fs := fs1 })
        | some fs2 =>
          match tmpPath with
          | some t => (none, { st with fs := RemoveAll fs2 t })
          | none => (none, { st with fs := fs2 })

/-- Run of `cmd` by the environment, recorded in the state. -/
def runCmd (env : Env) (cmd : Cmd) (st : State) : Option Error × State :=
  let r := env.run cmd st.fs
  (r.1, { st with fs := r.2, ran := st.ran ++ [cmd] })

/-- Source `ExecCmd`: sets `cmd.Dir`, runs the command and wraps its error. -/
def ExecCmd (env : Env) (cmd : Cmd) (projPath : Path) (st : State) : Option Error × State :=
  match runCmd env { cmd with dir := some projPath } st with
  | (some e, st1) => (some (Error.wrap "stderr" e), st1)
  | (none, st1) => (none, st1)

/-- Source `AddDependencies`: the result of `os.Stat(deps)` only selects a log line; the
script is run in every case. -/
def AddDependencies (env : Env) (projPath : Path) (st : State) : Option Error × State :=
  let deps := Join (projectPath st) (lit "_deps.sh")
  let cmd := Command (lit "sh") [Arg.path deps]
  match runCmd env { cmd with dir := some projPath } st with
  | (some e, st1) => (some (Error.wrap "failed adding dependencies" e), st1)
  | (none, st1) => (none, st1)

/-- Source `ReplaceTokenInFile`. -/
def ReplaceTokenInFile (filePath : Path) (modPath projName : Bytes) (st : State) :
    Option Error × State :=
  match ReadFile st.fs filePath with
  | none => (some (Error.fsError filePath), st)
  | some data =>
    match WriteFile st.fs filePath (updatedData data modPath projName) with
    | none => (some (Error.fsError filePath), st)
    | some fs1 => (none, { st with fs := fs1 })

/-- The calls of the function given to `filepath.Walk`, one per regular file, until one
fails. -/
def replaceTokensIn (modPath projName : Bytes) : List Path → State → Option Error × State
  | [], st => (none, st)
  | p :: ps, st =>
    match ReplaceTokenInFile p modPath projName st with
    | (some e, st1) => (some (Error.wrap "failed replacing tokens in file" e), st1)
    | (none, st1) => replaceTokensIn modPath projName ps st1

/-- Source `ReplaceTokens`: `filepath.Walk` over `projPath`, calling `ReplaceTokenInFile`
on what is not a directory. The files are visited in the order of the model's listing;
each call rewrites its own file only. -/
def ReplaceTokens (projPath : Path) (modPath projName : Bytes) (st : State) :
    Option Error × State :=
  match Stat st.fs projPath with
  | none => (some (Error.notExist projPath), st)
  | some _ =>
    replaceTokensIn modPath projName
      ((st.fs.filter (fun e => projPath <+: e.1 ∧ e.2 ≠ Node.dir)).map Prod.fst) st

/-- Source `GoModInit`. -/
def GoModInit (env : Env) (modPath : Bytes) (projPath : Path) (st : State) :
    Option Error × State :=
  ExecCmd env (Command (lit "go") [Arg.text (lit "mod"), Arg.text (lit "init"), Arg.text modPath])
    projPath st

/-- Source `GoModTidy`. -/
def GoModTidy (env : Env) (projPath : Path) (st : State) : Option Error × State :=
  ExecCmd env (Command (lit "go") [Arg.text (lit "mod"), Arg.text (lit "tidy")]) projPath st

/-- Source `GitInit`. -/
def GitInit (env : Env) (projPath : Path) (st : State) : Option Error × State :=
  ExecCmd env
    (Command (lit "git") [Arg.text (lit "init"), Arg.text (lit "-b"), Arg.text (lit "main")])
    projPath st

/-- Source `GitAdd`. -/
def GitAdd (env : Env) (projPath : Path) (st : State) : Option Error × State :=
  ExecCmd env (Command (lit "git") [Arg.text (lit "add"), Arg.text (lit ".")]) projPath st

/-- Source `GitCommit`. -/
def GitCommit (env : Env) (projPath : Path) (st : State) : Option Error × State :=
  ExecCmd env
    (Command (lit "git")
      [Arg.text (lit "commit"), Arg.text (lit "-m"),
        Arg.text (lit "created by forge: initial commit")])
    projPath st

/-- Source `Rollback`: `os.RemoveAll(projPath)`. -/
def Rollback (projPath : Path) (st : State) : Option Error × State :=
  (none, { st with fs := RemoveAll st.fs projPath })

/-! ## The pipeline -/

/-- The eight steps `CreateProject` calls. -/
inductive Step
  | ExtractTemplate
  | ReplaceTokens
  | GoModInit
  | AddDependencies
  | GoModTidy
  | GitInit
  | GitAdd
  | GitCommit
  deriving DecidableEq, Repr

/-- One call of a step by `CreateProject`: the step, the state it was called in and
whether it returned no error. -/
structure Call where
  step : Step
  before : State
  ok : Bool

/-- The functions behind the eight steps. `CreateProject` is stated over any such
functions, so that every combination of step outcomes is covered; `steps` gives the ones
of the source. -/
structure Steps where
  ExtractTemplate : Bytes → State → Option Error × State
  ReplaceTokens : Path → Bytes → Bytes → State → Option Error × State
  GoModInit : Bytes → Path → State → Option Error × State
  AddDependencies : Path → State → Option Error × State
  GoModTidy : Path → State → Option Error × State
  GitInit : Path → State → Option Error × State
  GitAdd : Path → State → Option Error × State
  GitCommit : Path → State → Option Error × State

/-- The steps of the source, over the environment `env`. -/
def steps (env : Env) : Steps where
  ExtractTemplate := ExtractTemplate env
  ReplaceTokens := ReplaceTokens
  GoModInit := GoModInit env
  AddDependencies := AddDependencies env
  GoModTidy := GoModTidy env
  GitInit := GitInit env
  GitAdd := GitAdd env
  GitCommit := GitCommit env

/-- Result of `CreateProject`: the calls made, in order, the error returned and the
state left. -/
structure Run where
  calls : List Call
  err : Option Error
  st : State

/-- Source `CreateProject`. -/
def CreateProject (P : Steps) (env : Env) (templatePath projectDirName moduleName : Bytes)
    (st : State) : Run :=
  match Stat st.fs (resolve env.cwd templatePath) with
  | none =>
    ⟨[], some (Error.wrap "could not find the validTemplate"
      (Error.notExist (resolve env.cwd templatePath))), st⟩
  | some _ =>
    let s0 : State := { st with workDir := env.cwd, projectDir := projectDirName }
    match P.ExtractTemplate templatePath s0 with
    | (some e, s1) => ⟨[⟨Step.ExtractTemplate, s0, false⟩], some e, s1⟩
    | (none, s1) =>
    let c1 := [Call.mk Step.ExtractTemplate s0 true]
    match P.ReplaceTokens (projectPath s1) moduleName projectDirName s1 with
    | (some e, s2) =>
      ⟨c1 ++ [⟨Step.ReplaceTokens, s1, false⟩], some (Error.wrap "failed replacing tokens" e), s2⟩
    | (none, s2) =>
    let c2 := c1 ++ [Call.mk Step.ReplaceTokens s1 true]
    match P.GoModInit moduleName (projectPath s2) s2 with
    | (some e, s3) =>
      ⟨c2 ++ [⟨Step.GoModInit, s2, false⟩],
        some (Error.wrap "could not initialize go module" e), s3⟩
    | (none, s3) =>
    let c3 := c2 ++ [Call.mk Step.GoModInit s2 true]
    match P.AddDependencies (projectPath s3) s3 with
    | (some e, s4) =>
      ⟨c3 ++ [⟨Step.AddDependencies, s3, false⟩],
        some (Error.wrap "failed adding dependencies" e), s4⟩
    | (none, s4) =>
    let c4 := c3 ++ [Call.mk Step.AddDependencies s3 true]
    match P.GoModTidy (projectPath s4) s4 with
    | (some e, s5) =>
      ⟨c4 ++ [⟨Step.GoModTidy, s4, false⟩], some (Error.wrap "could not tidy go module" e), s5⟩
    | (none, s5) =>
    let c5 := c4 ++ [Call.mk Step.GoModTidy s4 true]
    match P.GitInit (projectPath s5) s5 with
    | (some e, s6) => ⟨c5 ++ [⟨Step.GitInit, s5, false⟩], some e, s6⟩
    | (none, s6) =>
    let c6 := c5 ++ [Call.mk Step.GitInit s5 true]
    match P.GitAdd (projectPath s6) s6 with
    | (some e, s7) => ⟨c6 ++ [⟨Step.GitAdd, s6, false⟩], some e, s7⟩
    | (none, s7) =>
    let c7 := c6 ++ [Call.mk Step.GitAdd s6 true]
    match P.GitCommit (projectPath s7) s7 with
    | (some e, s8) => ⟨c7 ++ [⟨Step.GitCommit, s7, false⟩], some e, s8⟩
    | (none, s8) => ⟨c7 ++ [⟨Step.GitCommit, s7, true⟩], none, s8⟩

/-- The fixed order of the steps in `CreateProject`. -/
def stepOrder : List Step :=
  [Step.ExtractTemplate, Step.ReplaceTokens, Step.GoModInit, Step.AddDependencies,
    Step.GoModTidy, Step.GitInit, Step.GitAdd, Step.GitCommit]

/-! ## The command line -/

/-- Values of the command-line flags after `pflag.Parse()`. -/
structure Flags where
  help : Bool
  version : Bool
  templatePath : Bytes
  projectName : Bytes
  moduleName : Bytes

/-- Source `flagValues`: the three results in the order `projPath, modPath, template`;
`none` stands for `log.Fatal`. -/
def flagValues (f : Flags) : Option (Bytes × Bytes × Bytes) :=
  if f.projectName.length = 0 then none
  else if f.templatePath.length = 0 then none
  else if f.moduleName.length = 0 then none
  else some (f.projectName, f.moduleName, f.templatePath)

/-- What a run of `main` did: the exit status, the arguments of its call of
`CreateProject` as `(templatePath, projectDirName, moduleName)` with the result, the path
given to `Rollback`, and the state left. -/
structure MainResult where
  exit : Nat
  args : Option (Bytes × Bytes × Bytes)
  created : Option Run
  rollback : Option Path
  st : State

/-- Source `main`. `showHelp` and `showVersion` exit with status 0, `log.Fatal` with
status 1. -/
def main (P : Steps) (env : Env) (f : Flags) (st : State) : MainResult :=
  if f.help then ⟨0, none, none, none, st⟩
  else if f.version then ⟨0, none, none, none, st⟩
  else if f.projectName.length = 0 ∨ f.moduleName.length = 0 then ⟨0, none, none, none, st⟩
  else
    match flagValues f with
    | none => ⟨1, none, none, none, st⟩
    | some (template, projectName, module) =>
      let r := CreateProject P env template projectName module st
      match r.err with
      | some _ =>
        let wd := env.cwd
        let rb := Rollback wd r.st
        ⟨1, some (template, projectName, module), some r, some wd, rb.2⟩
      | none => ⟨0, some (template, projectName, module), some r, none, r.st⟩

/-! ## Concrete inputs -/

/-- An archive with a directory, a file without token and a file with both tokens. -/
def demoArchive : List ZipEntry :=
  [⟨lit "src/", true, []⟩, ⟨lit "src/main.go", false, lit "package main"⟩,
    ⟨lit "README.md", false, projToken ++ lit " in " ++ modToken⟩]

/-- An environment: the working directory `/w`, the staging directory `/tmp/_forge_1`,
every archive decoded as `demoArchive`, and external programs that succeed and change
nothing, but for `sh`, which fails. -/
def demoEnv : Env where
  cwd := [lit "w"]
  unzipBytes := fun _ => some demoArchive
  tempDir := fun _ => some [lit "tmp", lit "_forge_1"]
  run := fun c fs =>
    if c.name = lit "sh" then (some (Error.exit (lit "No such file")), fs) else (none, fs)

/-- A state: the directories `/w` and `/tmp`, the archive `/w/t.zip` and a file
`/w/keep.txt` that is no part of any project. -/
def demoState : State where
  fs := [([lit "w"], Node.dir), ([lit "tmp"], Node.dir),
    ([lit "w", lit "t.zip"], Node.file [80, 75, 3, 4]),
    ([lit "w", lit "keep.txt"], Node.file (lit "mine"))]
  workDir := []
  projectDir := []
  ran := []

/-- The flags of `forge -t t.zip -p proj -m example.com/m`. -/
def demoFlags : Flags where
  help := false
  version := false
  templatePath := lit "t.zip"
  projectName := lit "proj"
  moduleName := lit "example.com/m"

/-- An environment whose archive holds one file entry named `../evil`. -/
def slipEnv : Env where
  cwd := [lit "w"]
  unzipBytes := fun _ => some [⟨lit "../evil", false, lit "x"⟩]
  tempDir := fun _ => some [lit "tmp", lit "_forge_1"]
  run := fun _ fs => (none, fs)

/-- The state `demoState` with the package variables set as `CreateProject` sets them for
the project `proj`: the project root is `/w/proj`. -/
def demoProject : State :=
  { demoState with workDir := [lit "w"], projectDir := lit "proj" }

theorem replaceFrom_skip (old new : Bytes) (u t : Bytes) :
    replaceFrom old new u.length (u ++ t) = replaceFrom old new 0 t := by
  induction u with
  | nil => cases t <;> simp [replaceFrom]
  | cons a u ih => simpa [replaceFrom] using ih

theorem ReplaceAll_nil (old new : Bytes) : ReplaceAll [] old new = [] := by
  simp [ReplaceAll, replaceFrom]

theorem ReplaceAll_hit (old new t : Bytes) (hne : old ≠ []) :
    ReplaceAll (old ++ t) old new = new ++ ReplaceAll t old new := by
  cases old with
  | nil => exact absurd rfl hne
  | cons a u =>
    have h := replaceFrom_skip (a :: u) new u t
    simp only [ReplaceAll, List.cons_append, replaceFrom]
    have hp : (a :: u).isPrefixOf (a :: (u ++ t)) = true := by
      rw [List.isPrefixOf_iff_prefix]; exact ⟨t, rfl⟩
    simp [hp, h]

theorem ReplaceAll_miss (old new : Bytes) (c : Nat) (s : Bytes) (h : ¬ old <+: c :: s) :
    ReplaceAll (c :: s) old new = c :: ReplaceAll s old new := by
  have hp : old.isPrefixOf (c :: s) = false := by
    rw [← Bool.not_eq_true, List.isPrefixOf_iff_prefix]; exact h
  simp [ReplaceAll, replaceFrom, hp]

theorem scan_induction (old : Bytes) (hne : old ≠ []) (motive : Bytes → Prop)
    (nil : motive [])
    (hit : ∀ t, motive t → motive (old ++ t))
    (miss : ∀ c s, ¬ old <+: c :: s → motive s → motive (c :: s)) :
    ∀ s, motive s := by
  intro s
  generalize h : s.length = n
  induction n using Nat.strong_induction_on generalizing s with
  | _ n ih =>
    cases s with
    | nil => exact nil
    | cons c s =>
      by_cases hp : old <+: c :: s
      · obtain ⟨t, ht⟩ := hp
        rw [← ht]
        apply hit
        apply ih t.length _ t rfl
        have : (old ++ t).length = (c :: s).length := by rw [ht]
        have hl : 0 < old.length := List.length_pos.mpr hne
        simp at this h
        omega
      · exact miss c s hp (ih s.length (by simp at h; omega) s rfl)


theorem Count_nil (sep : Bytes) : Count [] sep = 0 := by
  simp [Count, countFrom]

theorem countFrom_skip (sep : Bytes) (u t : Bytes) :
    countFrom sep u.length (u ++ t) = countFrom sep 0 t := by
  induction u with
  | nil => cases t <;> simp [countFrom]
  | cons a u ih => simpa [countFrom] using ih

theorem Count_hit (sep t : Bytes) (hne : sep ≠ []) :
    Count (sep ++ t) sep = Count t sep + 1 := by
  cases sep with
  | nil => exact absurd rfl hne
  | cons a u =>
    have h := countFrom_skip (a :: u) u t
    simp only [Count, List.cons_append, countFrom]
    have hp : (a :: u).isPrefixOf (a :: (u ++ t)) = true := by
      rw [List.isPrefixOf_iff_prefix]; exact ⟨t, rfl⟩
    simp [hp, h]

theorem Count_miss (sep : Bytes) (c : Nat) (s : Bytes) (h : ¬ sep <+: c :: s) :
    Count (c :: s) sep = Count s sep := by
  have hp : sep.isPrefixOf (c :: s) = false := by
    rw [← Bool.not_eq_true, List.isPrefixOf_iff_prefix]; exact h
  simp [Count, countFrom, hp]

/-- An occurrence of `tok` in `a ++ new ++ b` lies inside `a` or inside `b` when `new`
holds neither the first nor the last byte of `tok` and is not a piece of `tok`. -/
theorem infix_around (tok new a b : Bytes)
    (hh : ∀ x, tok.head? = some x → x ∉ new)
    (hl : ∀ x, tok.getLast? = some x → x ∉ new)
    (hn : ¬ new <:+: tok)
    (h : tok <:+: a ++ (new ++ b)) : tok <:+: a ∨ tok <:+: b := by
  obtain ⟨p, q, hpq⟩ := h
  rw [List.append_assoc, List.append_eq_append_iff] at hpq
  rcases hpq with ⟨a', ha, h1⟩ | ⟨c', hp, h2⟩
  · -- the occurrence starts inside `a`
    rw [List.append_eq_append_iff] at h1
    rcases h1 with ⟨x, hx, _⟩ | ⟨x, htok, h3⟩
    · left
      exact ⟨p, x, by rw [ha, hx, List.append_assoc]⟩
    · rw [List.append_eq_append_iff] at h3
      rcases h3 with ⟨y, hx, _⟩ | ⟨y, hnew, _⟩
      · -- it runs over the whole of `new`
        exfalso
        exact hn ⟨a', y, by rw [htok, hx, List.append_assoc]⟩
      · -- it ends inside `new`
        rcases List.eq_nil_or_concat x with hx | ⟨x', z, hx⟩
        · left
          refine ⟨p, [], ?_⟩
          rw [htok, hx, ha]
          simp
        · exfalso
          refine hl z ?_ ?_
          · rw [htok, hx]; simp
          · rw [hnew, hx]; simp
  · -- the occurrence starts at or after the end of `a`
    rw [List.append_eq_append_iff] at h2
    rcases h2 with ⟨x, _, hb⟩ | ⟨x, hnew, h3⟩
    · right
      exact ⟨x, q, by rw [hb, List.append_assoc]⟩
    · cases x with
      | nil =>
        right
        exact ⟨[], q, by simpa using h3⟩
      | cons z x =>
        cases tok with
        | nil => left; exact List.nil_infix
        | cons t tok =>
          exfalso
          simp only [List.cons_append, List.cons.injEq] at h3
          refine hh z ?_ ?_
          · simp [h3.1]
          · rw [hnew]; simp

/-- Replacing leaves a slice without occurrence of `old` as it is. -/
theorem ReplaceAll_eq_self (old new : Bytes) (hne : old ≠ []) (s : Bytes)
    (h : ¬ old <:+: s) : ReplaceAll s old new = s := by
  induction s using scan_induction old hne with
  | nil => exact ReplaceAll_nil old new
  | hit t _ => exact absurd (List.infix_append' [] old t) h
  | miss c s hp ih =>
    rw [ReplaceAll_miss old new c s hp, ih]
    exact fun hs => h (List.infix_cons hs)

/-- Each replacement trades `old.length` bytes for `new.length` bytes. -/
theorem length_ReplaceAll (old new : Bytes) (hne : old ≠ []) (s : Bytes) :
    (ReplaceAll s old new).length + Count s old * old.length
      = s.length + Count s old * new.length := by
  induction s using scan_induction old hne with
  | nil => simp [ReplaceAll_nil, Count_nil]
  | hit t ih =>
    rw [ReplaceAll_hit old new t hne, Count_hit old t hne]
    simp only [List.length_append, Nat.add_mul, Nat.one_mul]
    omega
  | miss c s hp ih =>
    rw [ReplaceAll_miss old new c s hp, Count_miss old c s hp]
    simp only [List.length_cons]
    omega

/-- A token absent from `s` stays absent when the inserted bytes cannot take part in it. -/
theorem not_infix_ReplaceAll (tok old new : Bytes) (hne : old ≠ [])
    (hh : ∀ x, tok.head? = some x → x ∉ new)
    (hl : ∀ x, tok.getLast? = some x → x ∉ new)
    (hn : ¬ new <:+: tok) (s : Bytes) :
    ∀ pre : Bytes, ¬ tok <:+: pre ++ s → ¬ tok <:+: pre ++ ReplaceAll s old new := by
  induction s using scan_induction old hne with
  | nil => intro pre h; simpa [ReplaceAll_nil] using h
  | hit t ih =>
    intro pre h hc
    rw [ReplaceAll_hit old new t hne] at hc
    rcases infix_around tok new pre _ hh hl hn hc with h1 | h2
    · exact h (h1.trans (List.infix_append' [] pre _))
    · refine ih [] (fun ht => h ?_) h2
      rw [List.nil_append] at ht
      exact ht.trans ⟨pre ++ old, [], by simp⟩
  | miss c s hp ih =>
    intro pre h
    rw [ReplaceAll_miss old new c s hp]
    have := ih (pre ++ [c]) (by simpa using h)
    simpa using this

/-- No occurrence of `old` is left by the replacement when the inserted bytes cannot take
part in one. The statement carries the bytes already emitted, `pre`, in which and across
whose end no occurrence starts. -/
theorem not_infix_ReplaceAll_self (old new : Bytes) (hne : old ≠ [])
    (hh : ∀ x, old.head? = some x → x ∉ new)
    (hl : ∀ x, old.getLast? = some x → x ∉ new)
    (hn : ¬ new <:+: old) (s : Bytes) :
    ∀ pre : Bytes, (∀ p q, p ++ old ++ q = pre ++ s → pre.length ≤ p.length) →
      ¬ old <:+: pre ++ ReplaceAll s old new := by
  have hpos : 0 < old.length := List.length_pos.mpr hne
  induction s using scan_induction old hne with
  | nil =>
    intro pre h ⟨p, q, hpq⟩
    have h1 := h p q (by simpa [ReplaceAll_nil] using hpq)
    have h2 := congrArg List.length hpq
    simp [ReplaceAll_nil] at h2
    omega
  | hit t ih =>
    intro pre h hc
    rw [ReplaceAll_hit old new t hne] at hc
    rcases infix_around old new pre _ hh hl hn hc with ⟨p, q, hpq⟩ | h2
    · have h1 := h p (q ++ (old ++ t)) (by rw [← hpq]; simp)
      have h2 := congrArg List.length hpq
      simp at h2
      omega
    · exact ih [] (fun p q _ => Nat.zero_le _) h2
  | miss c s hp ih =>
    intro pre h
    rw [ReplaceAll_miss old new c s hp]
    have := ih (pre ++ [c]) (fun p q hpq => by
      have h1 := h p q (by simpa using hpq)
      rcases Nat.lt_or_ge pre.length p.length with hlt | hge
      · simpa using hlt
      · exfalso
        have hlen : p.length = pre.length := Nat.le_antisymm hge h1
        have h3 : p ++ (old ++ q) = pre ++ (c :: s) := by simpa using hpq
        have h4 := List.append_inj h3 hlen
        exact hp ⟨q, h4.2⟩)
    simpa using this

/-- The replacement of a concatenation is the concatenation of the replacements when no
occurrence of `old` runs across the seam. -/
theorem ReplaceAll_append (old new : Bytes) (hne : old ≠ []) (a : Bytes) :
    ∀ b : Bytes,
      (∀ p q, p ++ old ++ q = a ++ b → p.length + old.length ≤ a.length ∨ a.length ≤ p.length) →
      ReplaceAll (a ++ b) old new = ReplaceAll a old new ++ ReplaceAll b old new := by
  induction a using scan_induction old hne with
  | nil => intro b _; simp [ReplaceAll_nil]
  | hit t ih =>
    intro b h
    rw [List.append_assoc, ReplaceAll_hit old new _ hne, ReplaceAll_hit old new _ hne,
      ih b, List.append_assoc]
    intro p q hpq
    have h1 := h (old ++ p) q (by
      simp only [List.append_assoc] at hpq ⊢
      rw [hpq])
    simp only [List.length_append] at h1
    omega
  | miss c s hp ih =>
    intro b h
    have hp2 : ¬ old <+: c :: (s ++ b) := by
      intro hc
      obtain ⟨q, hq⟩ := hc
      have h1 := h [] q (by simpa using hq)
      simp only [List.length_nil, List.length_cons] at h1
      have h2 : old.length ≤ (c :: s).length := by simp only [List.length_cons]; omega
      exact hp (List.prefix_of_prefix_length_le ⟨q, hq⟩ ⟨b, rfl⟩ h2)
    rw [List.cons_append, ReplaceAll_miss old new c _ hp2, ReplaceAll_miss old new c s hp, ih b,
      List.cons_append]
    intro p q hpq
    have h1 := h (c :: p) q (by rw [List.cons_append, List.cons_append, hpq, List.cons_append])
    simp only [List.length_cons] at h1
    omega

/-- A token at the head of the output was at the head of the input when the inserted
bytes cannot take part in it. -/
theorem prefix_of_prefix_ReplaceAll (tok old new : Bytes) (hne : old ≠ [])
    (hl : ∀ x, tok.getLast? = some x → x ∉ new)
    (hn : ¬ new <:+: tok) (s : Bytes) :
    ∀ pre : Bytes, tok <+: pre ++ ReplaceAll s old new → tok <+: pre ++ s := by
  induction s using scan_induction old hne with
  | nil => intro pre h; simpa [ReplaceAll_nil] using h
  | hit t _ =>
    intro pre h
    rw [ReplaceAll_hit old new t hne] at h
    rcases List.prefix_or_prefix_of_prefix h (List.prefix_append pre _) with h1 | ⟨d, hd⟩
    · exact h1.trans (List.prefix_append pre _)
    · rw [← hd, List.prefix_append_right_inj] at h
      rcases List.prefix_or_prefix_of_prefix h (List.prefix_append new _) with h2 | ⟨e, he⟩
      · rcases List.eq_nil_or_concat d with hd0 | ⟨d', z, hdz⟩
        · rw [← hd, hd0, List.append_nil]
          exact List.prefix_append pre _
        · exfalso
          refine hl z ?_ (h2.subset ?_)
          · rw [← hd, hdz]; simp
          · rw [hdz]; simp
      · exact absurd ⟨pre, e, by rw [← hd, ← he, List.append_assoc]⟩ hn
  | miss c s hp ih =>
    intro pre h
    rw [ReplaceAll_miss old new c s hp] at h
    have := ih (pre ++ [c]) (by simpa using h)
    simpa using this

/-- The concatenation `a ++ t` holds no occurrence of `tok` that starts inside `a`, when
no proper piece at the end of `a` starts `tok` or is started by it. -/
theorem starts_after (tok a : Bytes)
    (h : ∀ x ∈ a.tails, x ≠ [] → ¬ tok <+: x ∧ ¬ x <+: tok) (p q t : Bytes)
    (hpq : p ++ tok ++ q = a ++ t) : a.length ≤ p.length := by
  rw [List.append_assoc, List.append_eq_append_iff] at hpq
  rcases hpq with ⟨x, ha, h1⟩ | ⟨c, hp, _⟩
  · by_cases hx : x = []
    · rw [ha, hx]; simp
    · exfalso
      have hmem : x ∈ a.tails := by
        rw [List.mem_tails]; exact ⟨p, ha.symm⟩
      have h2 := h x hmem hx
      rcases List.prefix_or_prefix_of_prefix (List.prefix_append tok q)
        (h1 ▸ List.prefix_append x t) with h3 | h3
      · exact h2.1 h3
      · exact h2.2 h3
  · rw [hp]; simp

/-- Two replacements commute when neither token starts inside the other and the bytes
inserted for one cannot take part in an occurrence of the other. -/
theorem ReplaceAll_comm (A a B b : Bytes) (hA : A ≠ []) (hB : B ≠ [])
    (hAB : ∀ p q t, p ++ B ++ q = A ++ t → A.length ≤ p.length)
    (hBA : ∀ p q t, p ++ A ++ q = B ++ t → B.length ≤ p.length)
    (hBh : ∀ x, B.head? = some x → x ∉ a) (hBl : ∀ x, B.getLast? = some x → x ∉ a)
    (hBn : ¬ a <:+: B)
    (hAh : ∀ x, A.head? = some x → x ∉ b) (hAl : ∀ x, A.getLast? = some x → x ∉ b)
    (hAn : ¬ b <:+: A) (s : Bytes) :
    ReplaceAll (ReplaceAll s A a) B b = ReplaceAll (ReplaceAll s B b) A a := by
  -- the bytes inserted for one token hold no occurrence of the other
  have key : ∀ (X x Y y : Bytes), X ≠ [] → Y ≠ [] →
      (∀ p q t, p ++ Y ++ q = X ++ t → X.length ≤ p.length) →
      (∀ z, Y.head? = some z → z ∉ x) →
      ∀ t r : Bytes, ReplaceAll (ReplaceAll t Y y) X x = r →
        ReplaceAll (ReplaceAll (X ++ t) X x) Y y = x ++ ReplaceAll (ReplaceAll t X x) Y y ∧
        ReplaceAll (ReplaceAll (X ++ t) Y y) X x = x ++ r := by
    intro X x Y y hX hY hXY hYh t r hr
    have hYpos : 0 < Y.length := List.length_pos.mpr hY
    have hx : ¬ Y <:+: x := by
      intro hc
      cases Y with
      | nil => exact hY rfl
      | cons z Y => exact hYh z rfl (hc.subset (List.mem_cons_self z Y))
    have hXn : ¬ Y <:+: X := by
      rintro ⟨p, q, hpq⟩
      have h1 := hXY p q [] (by simpa using hpq)
      have h2 := congrArg List.length hpq
      simp only [List.length_append] at h2
      omega
    constructor
    · rw [ReplaceAll_hit X x t hX, ReplaceAll_append Y y hY x, ReplaceAll_eq_self Y y hY x hx]
      intro p q hpq
      rcases Nat.lt_or_ge p.length x.length with hlt | hge
      · exfalso
        rw [List.append_assoc, List.append_eq_append_iff] at hpq
        rcases hpq with ⟨c, hc, h1⟩ | ⟨c, hc, _⟩
        · cases c with
          | nil => rw [hc] at hlt; simp at hlt
          | cons z c =>
            cases Y with
            | nil => exact hY rfl
            | cons w Y =>
              simp only [List.cons_append, List.cons.injEq] at h1
              refine hYh w rfl ?_
              rw [hc, h1.1]; simp
        · rw [hc] at hlt; simp at hlt
      · exact Or.inr hge
    · rw [ReplaceAll_append Y y hY X, ReplaceAll_eq_self Y y hY X hXn,
        ReplaceAll_hit X x _ hX, hr]
      intro p q hpq
      exact Or.inr (hXY p q t hpq)
  generalize hn : s.length = n
  induction n using Nat.strong_induction_on generalizing s with
  | _ n ih =>
    by_cases hpA : A <+: s
    · obtain ⟨t, ht⟩ := hpA
      have hlen : t.length < n := by
        have := congrArg List.length ht
        have hpos : 0 < A.length := List.length_pos.mpr hA
        simp only [List.length_append] at this
        omega
      have h := key A a B b hA hB hAB hBh t _ rfl
      rw [← ht, h.1, h.2, ih t.length hlen t rfl]
    · by_cases hpB : B <+: s
      · obtain ⟨t, ht⟩ := hpB
        have hlen : t.length < n := by
          have := congrArg List.length ht
          have hpos : 0 < B.length := List.length_pos.mpr hB
          simp only [List.length_append] at this
          omega
        have h := key B b A a hB hA hBA hAh t _ rfl
        rw [← ht, h.1, h.2, ih t.length hlen t rfl]
      · cases s with
        | nil => simp [ReplaceAll_nil]
        | cons c s =>
          have h1 : ¬ B <+: c :: ReplaceAll s A a := by
            intro hc
            rw [← ReplaceAll_miss A a c s hpA] at hc
            exact hpB (by simpa using prefix_of_prefix_ReplaceAll B A a hA hBl hBn (c :: s) [] hc)
          have h2 : ¬ A <+: c :: ReplaceAll s B b := by
            intro hc
            rw [← ReplaceAll_miss B b c s hpB] at hc
            exact hpA (by simpa using prefix_of_prefix_ReplaceAll A B b hB hAl hAn (c :: s) [] hc)
          rw [ReplaceAll_miss A a c s hpA, ReplaceAll_miss B b c s hpB,
            ReplaceAll_miss B b c _ h1, ReplaceAll_miss A a c _ h2,
            ih s.length (by simp at hn; omega) s rfl]


/-- Counting in a concatenation adds up when no occurrence of `sep` runs across the seam. -/
theorem Count_append (sep : Bytes) (hne : sep ≠ []) (a : Bytes) :
    ∀ b : Bytes,
      (∀ p q, p ++ sep ++ q = a ++ b → p.length + sep.length ≤ a.length ∨ a.length ≤ p.length) →
      Count (a ++ b) sep = Count a sep + Count b sep := by
  induction a using scan_induction sep hne with
  | nil => intro b _; simp [Count_nil]
  | hit t ih =>
    intro b h
    rw [List.append_assoc, Count_hit sep _ hne, Count_hit sep _ hne, ih b]
    · omega
    · intro p q hpq
      have h1 := h (sep ++ p) q (by
        simp only [List.append_assoc] at hpq ⊢
        rw [hpq])
      simp only [List.length_append] at h1
      omega
  | miss c s hp ih =>
    intro b h
    have hp2 : ¬ sep <+: c :: (s ++ b) := by
      intro hc
      obtain ⟨q, hq⟩ := hc
      have h1 := h [] q (by simpa using hq)
      simp only [List.length_nil, List.length_cons] at h1
      have h2 : sep.length ≤ (c :: s).length := by simp only [List.length_cons]; omega
      exact hp (List.prefix_of_prefix_length_le ⟨q, hq⟩ ⟨b, rfl⟩ h2)
    rw [List.cons_append, Count_miss sep c _ hp2, Count_miss sep c s hp, ih b]
    intro p q hpq
    have h1 := h (c :: p) q (by rw [List.cons_append, List.cons_append, hpq, List.cons_append])
    simp only [List.length_cons] at h1
    omega

/-- A slice without occurrence of `sep` counts none. -/
theorem Count_eq_zero (sep : Bytes) (hne : sep ≠ []) (s : Bytes)
    (h : ¬ sep <:+: s) : Count s sep = 0 := by
  induction s using scan_induction sep hne with
  | nil => exact Count_nil sep
  | hit t _ => exact absurd (List.infix_append' [] sep t) h
  | miss c s hp ih =>
    rw [Count_miss sep c s hp, ih]
    exact fun hs => h (List.infix_cons hs)

/-- Replacing the token `A` by `a` keeps the number of occurrences of the token `B`, when
neither token starts inside the other and `a` cannot take part in an occurrence of `B`. -/
theorem Count_ReplaceAll (A a B : Bytes) (hA : A ≠ []) (hB : B ≠ [])
    (hAB : ∀ p q t, p ++ B ++ q = A ++ t → A.length ≤ p.length)
    (hBA : ∀ p q t, p ++ A ++ q = B ++ t → B.length ≤ p.length)
    (hBh : ∀ x, B.head? = some x → x ∉ a) (hBl : ∀ x, B.getLast? = some x → x ∉ a)
    (hBn : ¬ a <:+: B) (s : Bytes) :
    Count (ReplaceAll s A a) B = Count s B := by
  have hBpos : 0 < B.length := List.length_pos.mpr hB
  have hApos : 0 < A.length := List.length_pos.mpr hA
  have ha : ¬ B <:+: a := by
    intro hc
    cases B with
    | nil => exact hB rfl
    | cons z B => exact hBh z rfl (hc.subset (List.mem_cons_self z B))
  have hAn : ¬ B <:+: A := by
    rintro ⟨p, q, hpq⟩
    have h1 := hAB p q [] (by simpa using hpq)
    have h2 := congrArg List.length hpq
    simp only [List.length_append] at h2
    omega
  have hBA' : ¬ A <:+: B := by
    rintro ⟨p, q, hpq⟩
    have h1 := hBA p q [] (by simpa using hpq)
    have h2 := congrArg List.length hpq
    simp only [List.length_append] at h2
    omega
  generalize hn : s.length = n
  induction n using Nat.strong_induction_on generalizing s with
  | _ n ih =>
    by_cases hpA : A <+: s
    · obtain ⟨t, ht⟩ := hpA
      have hlen : t.length < n := by
        have := congrArg List.length ht
        simp only [List.length_append] at this
        omega
      rw [← ht, ReplaceAll_hit A a t hA, Count_append B hB a, Count_eq_zero B hB a ha,
        Count_append B hB A, Count_eq_zero B hB A hAn, ih t.length hlen t rfl]
      · intro p q hpq
        exact Or.inr (hAB p q t hpq)
      · intro p q hpq
        rcases Nat.lt_or_ge p.length a.length with hlt | hge
        · exfalso
          rw [List.append_assoc, List.append_eq_append_iff] at hpq
          rcases hpq with ⟨c, hc, h1⟩ | ⟨c, hc, _⟩
          · cases c with
            | nil => rw [hc] at hlt; simp at hlt
            | cons z c =>
              cases B with
              | nil => exact hB rfl
              | cons w B =>
                simp only [List.cons_append, List.cons.injEq] at h1
                refine hBh w rfl ?_
                rw [hc, h1.1]; simp
          · rw [hc] at hlt; simp at hlt
        · exact Or.inr hge
    · by_cases hpB : B <+: s
      · obtain ⟨t, ht⟩ := hpB
        have hlen : t.length < n := by
          have := congrArg List.length ht
          simp only [List.length_append] at this
          omega
        rw [← ht, ReplaceAll_append A a hA B, ReplaceAll_eq_self A a hA B hBA',
          Count_hit B _ hB, Count_hit B _ hB, ih t.length hlen t rfl]
        intro p q hpq
        exact Or.inr (hBA p q t hpq)
      · cases s with
        | nil => simp [ReplaceAll_nil]
        | cons c s =>
          have h1 : ¬ B <+: c :: ReplaceAll s A a := by
            intro hc
            rw [← ReplaceAll_miss A a c s hpA] at hc
            exact hpB (by simpa using prefix_of_prefix_ReplaceAll B A a hA hBl hBn (c :: s) [] hc)
          rw [ReplaceAll_miss A a c s hpA, Count_miss B c _ h1, Count_miss B c s hpB,
            ih s.length (by simp at hn; omega) s rfl]

/-! ### The two tokens -/

theorem projToken_ne_nil : projToken ≠ [] := by decide

theorem modToken_ne_nil : modToken ≠ [] := by decide

/-- No occurrence of the module-path token starts inside the project-name token. -/
theorem modToken_after_projToken (p q t : Bytes) (h : p ++ modToken ++ q = projToken ++ t) :
    projToken.length ≤ p.length :=
  starts_after modToken projToken (by decide) p q t h

/-- No occurrence of the project-name token starts inside the module-path token. -/
theorem projToken_after_modToken (p q t : Bytes) (h : p ++ projToken ++ q = modToken ++ t) :
    modToken.length ≤ p.length :=
  starts_after projToken modToken (by decide) p q t h

theorem head_projToken (x : Nat) (h : projToken.head? = some x) : x = 123 := by
  simpa [projToken] using h.symm

theorem last_projToken (x : Nat) (h : projToken.getLast? = some x) : x = 125 := by
  simpa [projToken] using h.symm

theorem head_modToken (x : Nat) (h : modToken.head? = some x) : x = 123 := by
  simpa [modToken] using h.symm

theorem last_modToken (x : Nat) (h : modToken.getLast? = some x) : x = 125 := by
  simpa [modToken] using h.symm

/-! ### Claims on `ReplaceTokenInFile` -/

/-- C1, as the claim states it, fails: for the file content made of the project-name token
between two more pairs of braces and the project name `project_name`, the content written
back is the project-name token. -/
theorem updatedData_token_remains :
    updatedData ([123, 123] ++ projToken ++ [125, 125]) (lit "example.com/m")
        (lit "project_name") = projToken ∧
      projToken <:+: updatedData ([123, 123] ++ projToken ++ [125, 125]) (lit "example.com/m")
        (lit "project_name") := by
  decide

/-- C1, amended: when neither replacement value holds a brace byte, the project name is
not a piece of the project-name token and the module path is not a piece of either
token, the content written back holds no occurrence of either token. -/
theorem updatedData_no_token (data modPath projName : Bytes)
    (hn1 : 123 ∉ projName) (hn2 : 125 ∉ projName) (hn3 : ¬ projName <:+: projToken)
    (hm1 : 123 ∉ modPath) (hm2 : 125 ∉ modPath)
    (hm3 : ¬ modPath <:+: projToken) (hm4 : ¬ modPath <:+: modToken) :
    ¬ projToken <:+: updatedData data modPath projName ∧
      ¬ modToken <:+: updatedData data modPath projName := by
  have h1 : ¬ projToken <:+: ReplaceAll data projToken projName := by
    have := not_infix_ReplaceAll_self projToken projName projToken_ne_nil
      (fun x hx => head_projToken x hx ▸ hn1) (fun x hx => last_projToken x hx ▸ hn2) hn3
      data [] (fun p q _ => Nat.zero_le _)
    simpa using this
  constructor
  · have := not_infix_ReplaceAll projToken modToken modPath modToken_ne_nil
      (fun x hx => head_projToken x hx ▸ hm1) (fun x hx => last_projToken x hx ▸ hm2) hm3
      (ReplaceAll data projToken projName) [] (by simpa using h1)
    simpa [updatedData] using this
  · have := not_infix_ReplaceAll_self modToken modPath modToken_ne_nil
      (fun x hx => head_modToken x hx ▸ hm1) (fun x hx => last_modToken x hx ▸ hm2) hm4
      (ReplaceAll data projToken projName) [] (fun p q _ => Nat.zero_le _)
    simpa [updatedData] using this

/-- Witness of `updatedData_no_token`: the values of the repository's test on a content
with both tokens. -/
theorem updatedData_no_token_witness :
    ¬ projToken <:+: updatedData (projToken ++ lit " " ++ modToken)
        (lit "github.com/username/projectname") (lit "projectname") ∧
      ¬ modToken <:+: updatedData (projToken ++ lit " " ++ modToken)
        (lit "github.com/username/projectname") (lit "projectname") :=
  updatedData_no_token _ _ _ (by decide) (by decide) (by decide) (by decide) (by decide)
    (by decide) (by decide)

/-- C5: a file content with no occurrence of the project-name token and none of the
module-path token is written back byte for byte. -/
theorem updatedData_of_no_token (data modPath projName : Bytes)
    (hp : ¬ projToken <:+: data) (hm : ¬ modToken <:+: data) :
    updatedData data modPath projName = data := by
  unfold updatedData
  rw [ReplaceAll_eq_self projToken projName projToken_ne_nil data hp,
    ReplaceAll_eq_self modToken modPath modToken_ne_nil data hm]

/-- Witness of `updatedData_of_no_token`. -/
theorem updatedData_of_no_token_witness :
    ¬ projToken <:+: lit "package main" ∧ ¬ modToken <:+: lit "package main" ∧
      updatedData (lit "package main") (lit "example.com/m") (lit "proj")
        = lit "package main" :=
  ⟨by decide, by decide, updatedData_of_no_token _ _ _ (by decide) (by decide)⟩

/-- C9, as the claim states it, fails: the file content is the project-name token, the
project name is the text of the module-path token and the module path is empty. The
content has one project-name token and no module-path token, the claimed length is
15, the length written is 0. -/
theorem updatedData_length_differs :
    Count projToken projToken = 1 ∧ Count projToken modToken = 0 ∧
      ((updatedData projToken [] modToken).length : Int) ≠
        (projToken.length : Int)
          + (Count projToken projToken : Int) * ((modToken.length : Int) - (projToken.length : Int))
          + (Count projToken modToken : Int)
            * ((([] : Bytes).length : Int) - (modToken.length : Int)) := by
  decide

/-- C9, amended: when the project name holds no brace byte and is not a piece of the
module-path token, a content with `N` project-name tokens and `M` module-path tokens is
written back with length
`len(data) + N * (len(projName) - 16) + M * (len(modPath) - 15)`. -/
theorem length_updatedData (data modPath projName : Bytes)
    (hn1 : 123 ∉ projName) (hn2 : 125 ∉ projName) (hn3 : ¬ projName <:+: modToken) :
    ((updatedData data modPath projName).length : Int) =
      (data.length : Int)
        + (Count data projToken : Int) * ((projName.length : Int) - (projToken.length : Int))
        + (Count data modToken : Int) * ((modPath.length : Int) - (modToken.length : Int)) := by
  have h1 := length_ReplaceAll projToken projName projToken_ne_nil data
  have h2 := length_ReplaceAll modToken modPath modToken_ne_nil
    (ReplaceAll data projToken projName)
  rw [Count_ReplaceAll projToken projName modToken projToken_ne_nil modToken_ne_nil
    modToken_after_projToken projToken_after_modToken
    (fun x hx => head_modToken x hx ▸ hn1) (fun x hx => last_modToken x hx ▸ hn2) hn3] at h2
  unfold updatedData
  zify at h1 h2
  linarith

/-- Witness of `length_updatedData`: two project-name tokens and one module-path token,
with the values of the repository's test. -/
theorem length_updatedData_witness :
    ((updatedData (projToken ++ modToken ++ projToken)
        (lit "github.com/username/projectname") (lit "projectname")).length : Int) =
      ((projToken ++ modToken ++ projToken).length : Int)
        + (Count (projToken ++ modToken ++ projToken) projToken : Int)
          * (((lit "projectname").length : Int) - (projToken.length : Int))
        + (Count (projToken ++ modToken ++ projToken) modToken : Int)
          * (((lit "github.com/username/projectname").length : Int) - (modToken.length : Int)) :=
  length_updatedData _ _ _ (by decide) (by decide) (by decide)

/-- C10, as the claim states it, fails: for the file content made of the project-name
token, the project name being the text of the module-path token, the order of the source
writes `x` and the other order writes the module-path token. -/
theorem updatedData_order_matters :
    updatedData projToken (lit "x") modToken = lit "x" ∧
      ReplaceAll (ReplaceAll projToken modToken (lit "x")) projToken modToken = modToken ∧
      updatedData projToken (lit "x") modToken
        ≠ ReplaceAll (ReplaceAll projToken modToken (lit "x")) projToken modToken := by
  decide

/-- C10, amended: when neither replacement value holds a brace byte, the project name is
not a piece of the module-path token and the module path is not a piece of the
project-name token, the two orders of the passes write the same bytes. -/
theorem updatedData_order (data modPath projName : Bytes)
    (hn1 : 123 ∉ projName) (hn2 : 125 ∉ projName) (hn3 : ¬ projName <:+: modToken)
    (hm1 : 123 ∉ modPath) (hm2 : 125 ∉ modPath) (hm3 : ¬ modPath <:+: projToken) :
    updatedData data modPath projName
      = ReplaceAll (ReplaceAll data modToken modPath) projToken projName :=
  ReplaceAll_comm projToken projName modToken modPath projToken_ne_nil modToken_ne_nil
    modToken_after_projToken projToken_after_modToken
    (fun x hx => head_modToken x hx ▸ hn1) (fun x hx => last_modToken x hx ▸ hn2) hn3
    (fun x hx => head_projToken x hx ▸ hm1) (fun x hx => last_projToken x hx ▸ hm2) hm3 data

/-- Witness of `updatedData_order`. -/
theorem updatedData_order_witness :
    updatedData (projToken ++ lit " " ++ modToken) (lit "github.com/username/projectname")
        (lit "projectname")
      = ReplaceAll (ReplaceAll (projToken ++ lit " " ++ modToken) modToken
          (lit "github.com/username/projectname")) projToken (lit "projectname") :=
  updatedData_order _ _ _ (by decide) (by decide) (by decide) (by decide) (by decide)
    (by decide)

/-! ### File system -/

theorem Stat_filter_of_keep (f : Path × Node → Bool) (x : Path) (fs : FS)
    (h : ∀ e ∈ fs, e.1 = x → f e = true) : Stat (fs.filter f) x = Stat fs x := by
  induction fs with
  | nil => rfl
  | cons e fs ih =>
    obtain ⟨k, n⟩ := e
    have ih' := ih (fun e he => h e (List.mem_cons_of_mem _ he))
    by_cases hk : k = x
    · subst hk
      have := h (k, n) (List.mem_cons_self _ _) rfl
      simp [List.filter, this, Stat]
    · cases hf : f (k, n) <;> simp [List.filter, hf, Stat, hk, ih']

theorem Stat_filter_of_drop (f : Path × Node → Bool) (x : Path) (fs : FS)
    (h : ∀ e ∈ fs, e.1 = x → f e = false) : Stat (fs.filter f) x = none := by
  induction fs with
  | nil => rfl
  | cons e fs ih =>
    obtain ⟨k, n⟩ := e
    have ih' := ih (fun e he => h e (List.mem_cons_of_mem _ he))
    by_cases hk : k = x
    · subst hk
      have := h (k, n) (List.mem_cons_self _ _) rfl
      simp [List.filter, this, ih']
    · cases hf : f (k, n) <;> simp [List.filter, hf, Stat, hk, ih']

theorem Stat_put (fs : FS) (p : Path) (n : Node) (q : Path) :
    Stat (put fs p n) q = if p = q then some n else Stat fs q := by
  unfold put
  by_cases h : p = q
  · simp [Stat, h]
  · simp only [Stat, h, if_false]
    apply Stat_filter_of_keep
    intro e _ he
    simpa [he] using fun hc : q = p => h hc.symm

theorem Stat_RemoveAll (fs : FS) (p q : Path) :
    Stat (RemoveAll fs p) q = if p <+: q then none else Stat fs q := by
  unfold RemoveAll
  by_cases h : p <+: q
  · simp only [h, if_true]
    apply Stat_filter_of_drop
    intro e _ he
    simpa [he] using h
  · simp only [h, if_false]
    apply Stat_filter_of_keep
    intro e _ he
    simpa [he] using h

/-- An existing path has an entry. -/
theorem mem_of_Stat (fs : FS) (p : Path) (n : Node) (h : Stat fs p = some n) :
    (p, n) ∈ fs := by
  induction fs with
  | nil => simp [Stat] at h
  | cons e fs ih =>
    obtain ⟨k, m⟩ := e
    by_cases hk : k = p
    · simp only [Stat, hk, if_true, Option.some.injEq] at h
      simp [hk, h]
    · simp only [Stat, hk, if_false] at h
      exact List.mem_cons_of_mem _ (ih h)

/-- What `os.MkdirAll` changes below an existing directory `base`: it only adds
directories, at missing paths strictly below `base`. -/
theorem mkdirAllRev_spec (fs : FS) (base : Path)
    (hb : base = [] ∨ Stat fs base = some Node.dir) :
    ∀ (r : List Bytes) (fs1 : FS), mkdirAllRev fs (r ++ base.reverse) = some fs1 →
      ∀ q, Stat fs1 q = Stat fs q ∨
        (Stat fs q = none ∧ Stat fs1 q = some Node.dir ∧ base <+: q ∧ q ≠ base) := by
  intro r
  induction r with
  | nil =>
    intro fs1 h q
    left
    rw [List.nil_append] at h
    rcases hb with hb | hb
    · subst hb
      simp [mkdirAllRev] at h
      rw [h]
    · cases hrev : base.reverse with
      | nil =>
        rw [hrev] at h
        simp [mkdirAllRev] at h
        rw [h]
      | cons c up =>
        rw [hrev] at h
        have hbase : (c :: up).reverse = base := by rw [← hrev, List.reverse_reverse]
        simp only [mkdirAllRev, hbase, hb] at h
        simp at h
        rw [h]
  | cons c r ih =>
    intro fs1 h q
    have hpath : (c :: (r ++ base.reverse)).reverse = base ++ r.reverse ++ [c] := by simp
    rw [List.cons_append] at h
    simp only [mkdirAllRev, hpath] at h
    cases hs : Stat fs (base ++ r.reverse ++ [c]) with
    | none =>
      rw [hs] at h
      cases hm : mkdirAllRev fs (r ++ base.reverse) with
      | none => rw [hm] at h; simp at h
      | some fs2 =>
        rw [hm] at h
        simp only [Option.some.injEq] at h
        subst h
        rw [Stat_put]
        by_cases hq : base ++ r.reverse ++ [c] = q
        · right
          subst hq
          refine ⟨hs, by simp, ⟨r.reverse ++ [c], by simp⟩, ?_⟩
          intro hc
          have := congrArg List.length hc
          simp at this
        · simp only [hq, if_false]
          exact ih fs2 hm q
    | some n =>
      rw [hs] at h
      cases n with
      | dir =>
        simp only [Option.some.injEq] at h
        left; rw [h]
      | file d => simp at h

theorem MkdirAll_spec (fs : FS) (base rel : Path) (fs1 : FS)
    (hb : base = [] ∨ Stat fs base = some Node.dir)
    (h : MkdirAll fs (base ++ rel) = some fs1) :
    ∀ q, Stat fs1 q = Stat fs q ∨
      (Stat fs q = none ∧ Stat fs1 q = some Node.dir ∧ base <+: q ∧ q ≠ base) := by
  unfold MkdirAll at h
  rw [List.reverse_append] at h
  exact mkdirAllRev_spec fs base hb rel.reverse fs1 h

theorem WriteFile_spec (fs : FS) (p : Path) (data : Bytes) (fs1 : FS)
    (h : WriteFile fs p data = some fs1) :
    fs1 = put fs p (Node.file data) ∧ Stat fs p ≠ some Node.dir := by
  unfold WriteFile at h
  split at h
  · simp at h
  · rename_i hne
    split at h
    · simp only [Option.some.injEq] at h
      exact ⟨h.symm, fun hc => hne hc⟩
    · simp at h

theorem Stat_map_move (src dst : Path) (l : FS)
    (hl : ∀ e ∈ l, ¬ dst <+: e.1) (q : Path) :
    Stat (l.map (moveEntry src dst)) q =
      if dst <+: q then Stat l (src ++ q.drop dst.length)
      else if src <+: q then none else Stat l q := by
  induction l with
  | nil => simp [Stat]
  | cons e l ih =>
    obtain ⟨k, n⟩ := e
    have ih' := ih (fun e he => hl e (List.mem_cons_of_mem _ he))
    have hk : ¬ dst <+: k := hl (k, n) (List.mem_cons_self _ _)
    simp only [List.map_cons]
    by_cases hs : src <+: k
    · obtain ⟨r, hr⟩ := hs
      subst hr
      have hf : moveEntry src dst (src ++ r, n) = (dst ++ r, n) := by
        simp [moveEntry]
      rw [hf]
      simp only [Stat]
      by_cases hq : dst ++ r = q
      · subst hq
        simp
      · simp only [hq, if_false, ih']
        by_cases hdq : dst <+: q
        · obtain ⟨q', hq'⟩ := hdq
          subst hq'
          have : ¬ r = q' := fun hc => hq (by rw [hc])
          simp [this]
        · simp only [hdq, if_false]
          by_cases hsq : src <+: q
          · simp [hsq]
          · have : ¬ src ++ r = q := fun hc => hsq ⟨r, hc⟩
            simp [hsq, this]
    · have hf : moveEntry src dst (k, n) = (k, n) := by
        simp [moveEntry, hs]
      rw [hf]
      simp only [Stat]
      by_cases hq : k = q
      · subst hq
        simp [hk, hs]
      · simp only [hq, if_false, ih']
        by_cases hdq : dst <+: q
        · have : ¬ k = src ++ List.drop dst.length q := fun hc => hs ⟨_, hc.symm⟩
          simp [hdq, this]
        · simp [hdq]

/-- The file system after a move of the tree at `src` to the free place `dst`. -/
theorem Stat_moveTree (fs : FS) (src dst : Path) (hsd : ¬ src <+: dst) (hds : ¬ dst <+: src)
    (q : Path) :
    Stat (moveTree fs src dst) q =
      if dst <+: q then Stat fs (src ++ q.drop dst.length)
      else if src <+: q then none else Stat fs q := by
  unfold moveTree
  rw [Stat_map_move src dst _ (by
    intro e he
    simpa using (List.mem_filter.mp he).2)]
  have hrm : ∀ x, Stat (fs.filter (fun e => ¬ dst <+: e.1)) x
      = if dst <+: x then none else Stat fs x := fun x => Stat_RemoveAll fs dst x
  by_cases hdq : dst <+: q
  · simp only [hdq, if_true]
    rw [hrm]
    have : ¬ dst <+: src ++ List.drop dst.length q := by
      intro hc
      rcases List.prefix_or_prefix_of_prefix hc (List.prefix_append src _) with h | h
      · exact hds h
      · exact hsd h
    simp [this]
  · simp only [hdq, if_false]
    rw [hrm]
    simp [hdq]

/-- A successful `os.Rename` of a directory to another path moves its tree to a place
with nothing below it. -/
theorem Rename_dir_spec (fs : FS) (src dst : Path) (fs1 : FS)
    (hsrc : Stat fs src = some Node.dir) (hne : src ≠ dst)
    (h : Rename fs src dst = some fs1) :
    fs1 = moveTree fs src dst ∧ hasChildren fs dst = false ∧ ¬ src <+: dst := by
  unfold Rename at h
  simp only [hsrc, hne, if_false] at h
  split at h
  · simp at h
  · rename_i hsd
    split at h
    · simp at h
    · split at h
      · split at h
        · simp at h
        · rename_i hc
          simp only [Option.some.injEq] at h
          exact ⟨h.symm, by simpa using hc, hsd⟩
      · split at h
        · simp at h
        · rename_i hc
          simp only [Option.some.injEq] at h
          exact ⟨h.symm, by simpa using hc, hsd⟩
      · rename_i hd _
        split at h
        · simp at h
        · rename_i hc
          simp only [Option.some.injEq] at h
          exact ⟨h.symm, by simpa using hc, hsd⟩
      · simp at h

/-- Cleaning a name without dot-dot component onto a directory stays below it. -/
theorem cleanOnto_local (cs : List Bytes) (h : [46, 46] ∉ cs) :
    ∀ base : Path, cleanOnto base cs = base ++ cleanOnto [] cs := by
  induction cs with
  | nil => intro base; simp [cleanOnto]
  | cons c cs ih =>
    intro base
    have hc : c ≠ [46, 46] := fun hc => h (by simp [hc])
    have hcs : [46, 46] ∉ cs := fun hc => h (List.mem_cons_of_mem _ hc)
    simp only [cleanOnto, hc, if_false]
    split
    · exact ih hcs base
    · rw [ih hcs (base ++ [c]), ih hcs ([] ++ [c])]
      simp

theorem Join_local (t : Path) (name : Bytes) (h : [46, 46] ∉ splitSlash name) :
    Join t name = t ++ cleanOnto [] (splitSlash name) :=
  cleanOnto_local (splitSlash name) h t

/-- One successful `unzip` below the staging directory `t`: the staging directory stays,
the regular files below it are the ones before and the entry when it is a file, and
nothing changes outside of it. -/
theorem unzip_step (cwd t : Path) (f : ZipEntry) (fs fs1 : FS)
    (ht : Stat fs t = some Node.dir)
    (hloc : [46, 46] ∉ splitSlash f.Name)
    (hnew : f.IsDir = false → ∀ data, Stat fs (t ++ relName f) ≠ some (Node.file data))
    (h : unzip cwd f (some t) fs = (none, fs1)) :
    Stat fs1 t = some Node.dir ∧
      (∀ rel data, Stat fs1 (t ++ rel) = some (Node.file data) ↔
        (Stat fs (t ++ rel) = some (Node.file data) ∨
          (f.IsDir = false ∧ relName f = rel ∧ f.data = data))) ∧
      (∀ q, ¬ t <+: q → Stat fs1 q = Stat fs q) := by
  have hj : Join t f.Name = t ++ relName f := Join_local t f.Name hloc
  unfold unzip at h
  simp only [hj, reduceCtorEq, false_and, if_false] at h
  cases hd : f.IsDir with
  | true =>
    simp only [hd, if_true] at h
    cases hm : MkdirAll fs (t ++ relName f) with
    | none => simp [hm] at h
    | some fs2 =>
      simp only [hm, Prod.mk.injEq, true_and] at h
      subst h
      have hs := MkdirAll_spec fs t (relName f) fs2 (Or.inr ht) hm
      refine ⟨?_, ?_, ?_⟩
      · rcases hs t with h1 | h1
        · rw [h1, ht]
        · rw [ht] at h1; simp at h1
      · intro rel data
        rcases hs (t ++ rel) with h1 | h1
        · rw [h1]; simp
        · rw [h1.1, h1.2.1]; simp
      · intro q hq
        rcases hs q with h1 | h1
        · exact h1
        · exact absurd h1.2.2.1 hq
  | false =>
    simp only [hd, Bool.false_eq_true, if_false] at h
    cases hm : MkdirAll fs (Dir (t ++ relName f)) with
    | none => simp [hm] at h
    | some fs2 =>
      simp only [hm] at h
      cases hw : WriteFile fs2 (t ++ relName f) f.data with
      | none => simp [hw] at h
      | some fs3 =>
        simp only [hw, Prod.mk.injEq, true_and] at h
        subst h
        obtain ⟨hput, hnd⟩ := WriteFile_spec fs2 _ _ _ hw
        subst hput
        -- the entry is not the staging directory itself
        have hrel : relName f ≠ [] := by
          intro hc
          rw [hc, List.append_nil] at hm hnd
          have hs := MkdirAll_spec fs [] (Dir t) fs2 (Or.inl rfl) (by simpa using hm)
          rcases hs t with h1 | h1
          · exact hnd (by rw [h1, ht])
          · rw [ht] at h1; simp at h1
        have hdir : Dir (t ++ relName f) = t ++ (relName f).dropLast := by
          unfold Dir
          exact List.dropLast_append_of_ne_nil _ hrel
        rw [hdir] at hm
        have hs := MkdirAll_spec fs t _ fs2 (Or.inr ht) hm
        have hne : t ++ relName f ≠ t := by
          intro hc
          have := congrArg List.length hc
          simp at this
          exact hrel this
        refine ⟨?_, ?_, ?_⟩
        · rw [Stat_put]
          simp only [hne, if_false]
          rcases hs t with h1 | h1
          · rw [h1, ht]
          · rw [ht] at h1; simp at h1
        · intro rel data
          rw [Stat_put]
          by_cases hr : relName f = rel
          · subst hr
            simp only [if_true, Option.some.injEq, Node.file.injEq, true_and]
            constructor
            · intro hh; exact Or.inr hh
            · rintro (hh | hh)
              · exact absurd hh (hnew hd data)
              · exact hh
          · have : ¬ t ++ relName f = t ++ rel := fun hc => hr (List.append_cancel_left hc)
            simp only [this, if_false, hr, false_and, and_false, or_false]
            rcases hs (t ++ rel) with h1 | h1
            · rw [h1]
            · rw [h1.1, h1.2.1]; simp
        · intro q hq
          rw [Stat_put]
          have : ¬ t ++ relName f = q := fun hc => hq ⟨_, hc⟩
          simp only [this, if_false]
          rcases hs q with h1 | h1
          · exact h1
          · exact absurd h1.2.2.1 hq

/-- The loop of `ExtractTemplate` over entries with names free of dot-dot components and
with pairwise different file names, none of them a file yet: when it ends without error,
the regular files below the staging directory `t` are the ones before and the file
entries, and nothing changes outside of `t`. -/
theorem unzipAll_spec (cwd t : Path) :
    ∀ (files : List ZipEntry) (fs fs1 : FS),
      Stat fs t = some Node.dir →
      (∀ f ∈ files, [46, 46] ∉ splitSlash f.Name) →
      ((files.filter (fun f => !f.IsDir)).map relName).Nodup →
      (∀ f ∈ files, f.IsDir = false →
        ∀ data, Stat fs (t ++ relName f) ≠ some (Node.file data)) →
      unzipAll cwd (some t) files fs = (none, fs1) →
      Stat fs1 t = some Node.dir ∧
        (∀ rel data, Stat fs1 (t ++ rel) = some (Node.file data) ↔
          (Stat fs (t ++ rel) = some (Node.file data) ∨
            ∃ f ∈ files, f.IsDir = false ∧ relName f = rel ∧ f.data = data)) ∧
        (∀ q, ¬ t <+: q → Stat fs1 q = Stat fs q) := by
  intro files
  induction files with
  | nil =>
    intro fs fs1 ht _ _ _ h
    simp only [unzipAll, Prod.mk.injEq, true_and] at h
    subst h
    exact ⟨ht, by simp, fun _ _ => rfl⟩
  | cons f rest ih =>
    intro fs fs1 ht hloc hnd hnew h
    unfold unzipAll at h
    cases hu : unzip cwd f (some t) fs with
    | mk e fs2 =>
      cases e with
      | some e => simp [hu] at h
      | none =>
        simp only [hu] at h
        obtain ⟨h1, h2, h3⟩ := unzip_step cwd t f fs fs2 ht
          (hloc f (List.mem_cons_self _ _)) (hnew f (List.mem_cons_self _ _)) hu
        have hnd' : ((rest.filter (fun f => !f.IsDir)).map relName).Nodup := by
          cases hd : f.IsDir with
          | true => simpa [List.filter, hd] using hnd
          | false =>
            have : ((f :: rest.filter (fun f => !f.IsDir)).map relName).Nodup := by
              simpa [List.filter, hd] using hnd
            exact (List.nodup_cons.mp this).2
        have hnew' : ∀ g ∈ rest, g.IsDir = false →
            ∀ data, Stat fs2 (t ++ relName g) ≠ some (Node.file data) := by
          intro g hg hgd data hc
          rcases (h2 (relName g) data).mp hc with hc1 | ⟨hfd, hfg, _⟩
          · exact hnew g (List.mem_cons_of_mem _ hg) hgd data hc1
          · have : ((f :: rest.filter (fun f => !f.IsDir)).map relName).Nodup := by
              simpa [List.filter, hfd] using hnd
            have hnot := (List.nodup_cons.mp this).1
            apply hnot
            rw [hfg]
            exact List.mem_map.mpr ⟨g, List.mem_filter.mpr ⟨hg, by simp [hgd]⟩, rfl⟩
        obtain ⟨k1, k2, k3⟩ := ih fs2 fs1 h1
          (fun g hg => hloc g (List.mem_cons_of_mem _ hg)) hnd' hnew' h
        refine ⟨k1, ?_, ?_⟩
        · intro rel data
          rw [k2 rel data, h2 rel data]
          constructor
          · rintro ((hh | hh) | ⟨g, hg, hh⟩)
            · exact Or.inl hh
            · exact Or.inr ⟨f, List.mem_cons_self _ _, hh⟩
            · exact Or.inr ⟨g, List.mem_cons_of_mem _ hg, hh⟩
          · rintro (hh | ⟨g, hg, hh⟩)
            · exact Or.inl (Or.inl hh)
            · rcases List.mem_cons.mp hg with hgf | hgr
              · subst hgf
                exact Or.inl (Or.inr hh)
              · exact Or.inr ⟨g, hgr, hh⟩
        · intro q hq
          rw [k3 q hq, h3 q hq]

/-- C8, amended: for an archive whose entry names have no dot-dot component and whose
file entries have pairwise different names, extracted through a new staging directory
that is not the destination, a successful `ExtractTemplate` leaves below the destination
`projectPath()` exactly the regular files of the archive, each at the path of its name
and with its bytes; every entry is written below the staging directory, and nothing
changes outside of the staging directory and the destination. -/
theorem ExtractTemplate_files (env : Env) (templatePath bytes : Bytes) (files : List ZipEntry)
    (t : Path) (st st1 : State)
    (htpl : Stat st.fs (resolve env.cwd templatePath) = some (Node.file bytes))
    (hzip : env.unzipBytes bytes = some files)
    (htmp : env.tempDir st.fs = some t)
    (hfresh : ∀ q, t <+: q → Stat st.fs q = none)
    (hdst : t ≠ projectPath st)
    (hloc : ∀ f ∈ files, [46, 46] ∉ splitSlash f.Name)
    (hnd : ((files.filter (fun f => !f.IsDir)).map relName).Nodup)
    (hok : ExtractTemplate env templatePath st = (none, st1)) :
    (∀ rel data, Stat st1.fs (projectPath st ++ rel) = some (Node.file data) ↔
        ∃ f ∈ files, f.IsDir = false ∧ relName f = rel ∧ f.data = data) ∧
      (∀ f ∈ files, t <+: Join t f.Name) ∧
      (∀ q, ¬ t <+: q → ¬ projectPath st <+: q → Stat st1.fs q = Stat st.fs q) := by
  unfold ExtractTemplate at hok
  simp only [htpl, hzip, htmp] at hok
  cases hu : unzipAll env.cwd (some t) files (put st.fs t Node.dir) with
  | mk e fs1 =>
    cases e with
    | some e => simp [hu] at hok
    | none =>
      simp only [hu] at hok
      cases hr : Rename fs1 t (projectPath st) with
      | none => simp [hr] at hok
      | some fs2 =>
        simp only [hr, Prod.mk.injEq, true_and] at hok
        subst hok
        have ht0 : Stat (put st.fs t Node.dir) t = some Node.dir := by simp [Stat_put]
        obtain ⟨k1, k2, k3⟩ := unzipAll_spec env.cwd t files _ fs1 ht0 hloc hnd
          (by
            intro f _ _ data
            rw [Stat_put]
            split
            · simp
            · rw [hfresh _ (List.prefix_append t _)]; simp) hu
        obtain ⟨hmove, hch, hsd⟩ := Rename_dir_spec fs1 t (projectPath st) fs2 k1 hdst hr
        subst hmove
        have hds : ¬ projectPath st <+: t := by
          intro hc
          have hmem := mem_of_Stat fs1 t Node.dir k1
          have : hasChildren fs1 (projectPath st) = true := by
            unfold hasChildren
            rw [List.any_eq_true]
            exact ⟨(t, Node.dir), hmem, by simpa using ⟨hc, hdst⟩⟩
          rw [this] at hch
          exact Bool.noConfusion hch
        refine ⟨?_, ?_, ?_⟩
        · intro rel data
          simp only
          rw [Stat_RemoveAll, Stat_moveTree fs1 t _ hsd hds]
          have h1 : ¬ t <+: projectPath st ++ rel := by
            intro hc
            rcases List.prefix_or_prefix_of_prefix hc (List.prefix_append _ _) with h | h
            · exact hsd h
            · exact hds h
          simp only [h1, if_false, List.prefix_append, if_true, List.drop_left]
          rw [k2 rel data, Stat_put]
          constructor
          · rintro (hh | hh)
            · split at hh
              · simp at hh
              · rw [hfresh _ (List.prefix_append t _)] at hh; simp at hh
            · exact hh
          · exact fun hh => Or.inr hh
        · intro f hf
          rw [Join_local t f.Name (hloc f hf)]
          exact List.prefix_append _ _
        · intro q hq hpq
          simp only
          rw [Stat_RemoveAll, Stat_moveTree fs1 t _ hsd hds]
          simp only [hq, hpq, if_false]
          rw [k3 q hq, Stat_put]
          have : ¬ t = q := fun hc => hq (hc ▸ List.prefix_refl t)
          simp [this]

theorem ReadFile_put (fs : FS) (p : Path) (data : Bytes) :
    ReadFile (put fs p (Node.file data)) p = some data := by
  simp [ReadFile, Stat_put]

/-- What `ReplaceTokenInFile` writes back: when it returns no error on a file holding
`data`, the file holds `updatedData data modPath projName`. -/
theorem ReplaceTokenInFile_writes (filePath : Path) (modPath projName data : Bytes)
    (st st1 : State) (hr : ReadFile st.fs filePath = some data)
    (h : ReplaceTokenInFile filePath modPath projName st = (none, st1)) :
    ReadFile st1.fs filePath = some (updatedData data modPath projName) := by
  unfold ReplaceTokenInFile at h
  simp only [hr] at h
  cases hw : WriteFile st.fs filePath (updatedData data modPath projName) with
  | none => simp [hw] at h
  | some fs1 =>
    simp only [hw, Prod.mk.injEq, true_and] at h
    subst h
    rw [(WriteFile_spec _ _ _ _ hw).1]
    exact ReadFile_put _ _ _

/-! ### Claims on `CreateProject` -/

/-- C2, as the claim states it, fails: on a template path that does not exist
`CreateProject` returns an error and no step it called has failed, none being called. -/
theorem CreateProject_error_without_failed_step :
    (CreateProject (steps demoEnv) demoEnv (lit "missing.zip") (lit "proj")
        (lit "example.com/m") demoState).err ≠ none ∧
      ¬ ∃ c ∈ (CreateProject (steps demoEnv) demoEnv (lit "missing.zip") (lit "proj")
        (lit "example.com/m") demoState).calls, c.ok = false := by
  decide

/-- C2, amended: when the template path exists, whatever the eight steps do,
`CreateProject` calls them in the fixed order, every call but the last has succeeded,
the calls stop short of the whole order only after a failed call, and an error is
returned if and only if a call has failed. -/
theorem CreateProject_calls (P : Steps) (env : Env) (templatePath projectDirName moduleName : Bytes)
    (st : State) (r : Run)
    (hstat : Stat st.fs (resolve env.cwd templatePath) ≠ none)
    (hr : r = CreateProject P env templatePath projectDirName moduleName st) :
    r.calls.map Call.step <+: stepOrder ∧
      (∀ c ∈ r.calls.dropLast, c.ok = true) ∧
      ((∀ c ∈ r.calls, c.ok = true) → r.calls.map Call.step = stepOrder) ∧
      (r.err ≠ none ↔ ∃ c ∈ r.calls, c.ok = false) := by
  subst hr
  unfold CreateProject
  cases hs : Stat st.fs (resolve env.cwd templatePath) with
  | none => exact absurd hs hstat
  | some n =>
    simp only []
    generalize P.ExtractTemplate _ _ = r1
    obtain ⟨_ | e1, s1⟩ := r1
    · simp only []
      generalize P.ReplaceTokens _ _ _ _ = r2
      obtain ⟨_ | e2, s2⟩ := r2
      · simp only []
        generalize P.GoModInit _ _ _ = r3
        obtain ⟨_ | e3, s3⟩ := r3
        · simp only []
          generalize P.AddDependencies _ _ = r4
          obtain ⟨_ | e4, s4⟩ := r4
          · simp only []
            generalize P.GoModTidy _ _ = r5
            obtain ⟨_ | e5, s5⟩ := r5
            · simp only []
              generalize P.GitInit _ _ = r6
              obtain ⟨_ | e6, s6⟩ := r6
              · simp only []
                generalize P.GitAdd _ _ = r7
                obtain ⟨_ | e7, s7⟩ := r7
                · simp only []
                  generalize P.GitCommit _ _ = r8
                  obtain ⟨_ | e8, s8⟩ := r8
                  · simp [stepOrder]
                  · simp [stepOrder]
                · simp [stepOrder]
              · simp [stepOrder]
            · simp [stepOrder]
          · simp [stepOrder]
        · simp [stepOrder]
      · simp [stepOrder]
    · simp [stepOrder]

/-- Witness of `CreateProject_calls`: the archive exists, the first three steps succeed,
`AddDependencies` fails and ends the run. -/
theorem CreateProject_calls_witness :
    Stat demoState.fs (resolve demoEnv.cwd (lit "t.zip")) ≠ none ∧
      ((CreateProject (steps demoEnv) demoEnv (lit "t.zip") (lit "proj") (lit "example.com/m")
          demoState).calls.map Call.step <+: stepOrder ∧
        (∀ c ∈ (CreateProject (steps demoEnv) demoEnv (lit "t.zip") (lit "proj")
          (lit "example.com/m") demoState).calls.dropLast, c.ok = true) ∧
        ((∀ c ∈ (CreateProject (steps demoEnv) demoEnv (lit "t.zip") (lit "proj")
            (lit "example.com/m") demoState).calls, c.ok = true) →
          (CreateProject (steps demoEnv) demoEnv (lit "t.zip") (lit "proj")
            (lit "example.com/m") demoState).calls.map Call.step = stepOrder) ∧
        ((CreateProject (steps demoEnv) demoEnv (lit "t.zip") (lit "proj")
            (lit "example.com/m") demoState).err ≠ none ↔
          ∃ c ∈ (CreateProject (steps demoEnv) demoEnv (lit "t.zip") (lit "proj")
            (lit "example.com/m") demoState).calls, c.ok = false)) :=
  ⟨by decide, CreateProject_calls _ _ _ _ _ _ _ (by decide) rfl⟩

/-- C6: on a template path that does not exist `CreateProject` returns an error, calls no
step and leaves the state, the file system in it, as it was. -/
theorem CreateProject_missing_template (P : Steps) (env : Env)
    (templatePath projectDirName moduleName : Bytes) (st : State)
    (h : Stat st.fs (resolve env.cwd templatePath) = none) :
    (CreateProject P env templatePath projectDirName moduleName st).err ≠ none ∧
      (CreateProject P env templatePath projectDirName moduleName st).calls = [] ∧
      (CreateProject P env templatePath projectDirName moduleName st).st = st := by
  unfold CreateProject
  simp [h]

/-- Witness of `CreateProject_missing_template`. -/
theorem CreateProject_missing_template_witness :
    Stat demoState.fs (resolve demoEnv.cwd (lit "/some/invalid/path")) = none ∧
      (CreateProject (steps demoEnv) demoEnv (lit "/some/invalid/path") (lit "unitTestDir")
        (lit "github.com/username/projectname") demoState).err ≠ none ∧
      (CreateProject (steps demoEnv) demoEnv (lit "/some/invalid/path") (lit "unitTestDir")
        (lit "github.com/username/projectname") demoState).calls = [] ∧
      (CreateProject (steps demoEnv) demoEnv (lit "/some/invalid/path") (lit "unitTestDir")
        (lit "github.com/username/projectname") demoState).st = demoState :=
  ⟨by decide, CreateProject_missing_template _ _ _ _ _ _ (by decide)⟩

/-- The command `AddDependencies` runs: `sh` on the script of the project root, in the
directory `projPath`. -/
theorem AddDependencies_runs (env : Env) (projPath : Path) (st : State) :
    (AddDependencies env projPath st).2.ran =
        st.ran ++ [⟨lit "sh", [Arg.path (Join (projectPath st) (lit "_deps.sh"))], some projPath⟩] ∧
      (AddDependencies env projPath st).2.fs =
        (env.run ⟨lit "sh", [Arg.path (Join (projectPath st) (lit "_deps.sh"))], some projPath⟩
          st.fs).2 ∧
      ((AddDependencies env projPath st).1 ≠ none ↔
        (env.run ⟨lit "sh", [Arg.path (Join (projectPath st) (lit "_deps.sh"))], some projPath⟩
          st.fs).1 ≠ none) := by
  unfold AddDependencies runCmd Command
  simp only []
  generalize env.run _ _ = r
  obtain ⟨_ | e, fs1⟩ := r <;> simp

/-- C7: in a project root without the setup script `AddDependencies` still runs `sh` on
the script, once, and returns an error when the run fails, as it does on a script that
does not exist; and when `CreateProject` reaches `AddDependencies` only in project roots
without the script, it returns an error and calls none of `GoModTidy`, `GitInit`,
`GitAdd`, `GitCommit`. -/
theorem AddDependencies_missing_script (env : Env) (P : Steps)
    (templatePath projectDirName moduleName : Bytes) (st0 : State) (r : Run)
    (hsh : ∀ (fs : FS) (dir script : Path), Stat fs script = none →
      (env.run ⟨lit "sh", [Arg.path script], some dir⟩ fs).1 ≠ none)
    (hr : r = CreateProject { P with AddDependencies := AddDependencies env } env
      templatePath projectDirName moduleName st0) :
    (∀ (projPath : Path) (st : State),
        Stat st.fs (Join (projectPath st) (lit "_deps.sh")) = none →
        (AddDependencies env projPath st).2.ran =
            st.ran ++
              [⟨lit "sh", [Arg.path (Join (projectPath st) (lit "_deps.sh"))], some projPath⟩] ∧
          (AddDependencies env projPath st).1 ≠ none) ∧
      ((∀ c ∈ r.calls, c.step = Step.AddDependencies →
          Stat c.before.fs (Join (projectPath c.before) (lit "_deps.sh")) = none) →
        r.err ≠ none ∧
          ∀ c ∈ r.calls, c.step ≠ Step.GoModTidy ∧ c.step ≠ Step.GitInit ∧
            c.step ≠ Step.GitAdd ∧ c.step ≠ Step.GitCommit) := by
  have hadd : ∀ (projPath : Path) (st : State),
      Stat st.fs (Join (projectPath st) (lit "_deps.sh")) = none →
      (AddDependencies env projPath st).1 ≠ none := fun projPath st h =>
    (AddDependencies_runs env projPath st).2.2.mpr (hsh _ _ _ h)
  refine ⟨fun projPath st h => ⟨(AddDependencies_runs env projPath st).1, hadd projPath st h⟩, ?_⟩
  subst hr
  unfold CreateProject
  cases hs : Stat st0.fs (resolve env.cwd templatePath) with
  | none => simp
  | some n =>
    simp only []
    generalize P.ExtractTemplate _ _ = r1
    obtain ⟨_ | e1, s1⟩ := r1
    · simp only []
      generalize P.ReplaceTokens _ _ _ _ = r2
      obtain ⟨_ | e2, s2⟩ := r2
      · simp only []
        generalize P.GoModInit _ _ _ = r3
        obtain ⟨_ | e3, s3⟩ := r3
        · simp only []
          cases h4 : AddDependencies env (projectPath s3) s3 with
          | mk e4 s4 =>
            cases e4 with
            | some e4 => simp
            | none =>
              have hcontra : Stat s3.fs (Join (projectPath s3) (lit "_deps.sh")) ≠ none :=
                fun hc => hadd (projectPath s3) s3 hc (by rw [h4])
              simp only []
              generalize P.GoModTidy _ _ = r5
              obtain ⟨_ | e5, s5⟩ := r5
              · simp only []
                generalize P.GitInit _ _ = r6
                obtain ⟨_ | e6, s6⟩ := r6
                · simp only []
                  generalize P.GitAdd _ _ = r7
                  obtain ⟨_ | e7, s7⟩ := r7
                  · simp only []
                    generalize P.GitCommit _ _ = r8
                    obtain ⟨_ | e8, s8⟩ := r8
                    · intro hcalls
                      exact absurd (hcalls ⟨Step.AddDependencies, s3, true⟩ (by simp) rfl) hcontra
                    · intro hcalls
                      exact absurd (hcalls ⟨Step.AddDependencies, s3, true⟩ (by simp) rfl) hcontra
                  · intro hcalls
                    exact absurd (hcalls ⟨Step.AddDependencies, s3, true⟩ (by simp) rfl) hcontra
                · intro hcalls
                  exact absurd (hcalls ⟨Step.AddDependencies, s3, true⟩ (by simp) rfl) hcontra
              · intro hcalls
                exact absurd (hcalls ⟨Step.AddDependencies, s3, true⟩ (by simp) rfl) hcontra
        · simp
      · simp
    · simp

/-- Witness of `AddDependencies_missing_script`: the archive of `demoEnv` has no setup
script and its `sh` fails; the run stops at `AddDependencies`. -/
theorem AddDependencies_missing_script_witness :
    (∀ (fs : FS) (dir script : Path), Stat fs script = none →
        (demoEnv.run ⟨lit "sh", [Arg.path script], some dir⟩ fs).1 ≠ none) ∧
      (∀ c ∈ (CreateProject (steps demoEnv) demoEnv (lit "t.zip") (lit "proj")
          (lit "example.com/m") demoState).calls, c.step = Step.AddDependencies →
          Stat c.before.fs (Join (projectPath c.before) (lit "_deps.sh")) = none) ∧
      (CreateProject (steps demoEnv) demoEnv (lit "t.zip") (lit "proj")
          (lit "example.com/m") demoState).err ≠ none ∧
      ∀ c ∈ (CreateProject (steps demoEnv) demoEnv (lit "t.zip") (lit "proj")
          (lit "example.com/m") demoState).calls,
        c.step ≠ Step.GoModTidy ∧ c.step ≠ Step.GitInit ∧
          c.step ≠ Step.GitAdd ∧ c.step ≠ Step.GitCommit :=
  have hsh : ∀ (fs : FS) (dir script : Path), Stat fs script = none →
      (demoEnv.run ⟨lit "sh", [Arg.path script], some dir⟩ fs).1 ≠ none := by
    intro fs dir script _
    simp [demoEnv]
  have habsent : ∀ c ∈ (CreateProject (steps demoEnv) demoEnv (lit "t.zip") (lit "proj")
      (lit "example.com/m") demoState).calls, c.step = Step.AddDependencies →
      Stat c.before.fs (Join (projectPath c.before) (lit "_deps.sh")) = none := by
    decide
  ⟨hsh, habsent,
    (AddDependencies_missing_script demoEnv (steps demoEnv) (lit "t.zip") (lit "proj")
      (lit "example.com/m") demoState _ hsh rfl).2 habsent⟩

/-! ### Claims on `ExtractTemplate` -/

/-- C8, as the claim states it, fails: for an archive with the one file entry `../evil`
`ExtractTemplate` succeeds, the file is written to `/tmp/evil`, which is not below the
staging directory `/tmp/_forge_1`, and no regular file is below the destination. -/
theorem ExtractTemplate_writes_outside_staging :
    (ExtractTemplate slipEnv (lit "t.zip") demoProject).1 = none ∧
      Stat (ExtractTemplate slipEnv (lit "t.zip") demoProject).2.fs [lit "tmp", lit "evil"]
        = some (Node.file (lit "x")) ∧
      ¬ [lit "tmp", lit "_forge_1"] <+: [lit "tmp", lit "evil"] ∧
      projectPath demoProject = [lit "w", lit "proj"] ∧
      ∀ e ∈ (ExtractTemplate slipEnv (lit "t.zip") demoProject).2.fs,
        [lit "w", lit "proj"] <+: e.1 → e.2 = Node.dir := by
  decide

/-- Witness of `ExtractTemplate_files`: the archive of `demoEnv` extracted to `/w/proj`. -/
theorem ExtractTemplate_files_witness :
    (ExtractTemplate demoEnv (lit "t.zip") demoProject).1 = none ∧
      (∀ rel data,
        Stat (ExtractTemplate demoEnv (lit "t.zip") demoProject).2.fs
            (projectPath demoProject ++ rel) = some (Node.file data) ↔
          ∃ f ∈ demoArchive, f.IsDir = false ∧ relName f = rel ∧ f.data = data) ∧
      (∀ f ∈ demoArchive, [lit "tmp", lit "_forge_1"] <+: Join [lit "tmp", lit "_forge_1"] f.Name) ∧
      (∀ q, ¬ [lit "tmp", lit "_forge_1"] <+: q → ¬ projectPath demoProject <+: q →
        Stat (ExtractTemplate demoEnv (lit "t.zip") demoProject).2.fs q
          = Stat demoProject.fs q) :=
  have hfresh : ∀ q, [lit "tmp", lit "_forge_1"] <+: q → Stat demoProject.fs q = none := by
    rintro q ⟨r, rfl⟩
    simp [demoProject, demoState, Stat, lit]
  ⟨by decide,
    ExtractTemplate_files demoEnv (lit "t.zip") [80, 75, 3, 4] demoArchive
      [lit "tmp", lit "_forge_1"] demoProject _ (by decide) rfl rfl hfresh (by decide)
      (by decide) (by decide) (Prod.ext (by decide) rfl)⟩

/-! ### Claims on `main` -/

/-- C3 fails on the code: with the three flags given, `main` calls `CreateProject` with
the value of `--project-name` as `templatePath`, the value of `--module-name` as
`projectDirName` and the value of `--template-path` as `moduleName`. -/
theorem main_arguments (P : Steps) (env : Env) (f : Flags) (st : State)
    (hh : f.help = false) (hv : f.version = false)
    (ht : f.templatePath ≠ []) (hp : f.projectName ≠ []) (hm : f.moduleName ≠ []) :
    (main P env f st).args = some (f.projectName, f.moduleName, f.templatePath) := by
  have ht' : f.templatePath.length ≠ 0 := fun h => ht (List.length_eq_zero.mp h)
  have hp' : f.projectName.length ≠ 0 := fun h => hp (List.length_eq_zero.mp h)
  have hm' : f.moduleName.length ≠ 0 := fun h => hm (List.length_eq_zero.mp h)
  unfold main flagValues
  simp only [hh, hv, ht', hp', hm', Bool.false_eq_true, if_false, or_self]
  split <;> rfl

/-- Witness of `main_arguments`: `forge -t t.zip -p proj -m example.com/m` calls
`CreateProject` with the template path `proj`. -/
theorem main_arguments_witness :
    demoFlags.templatePath = lit "t.zip" ∧ demoFlags.projectName = lit "proj" ∧
      demoFlags.moduleName = lit "example.com/m" ∧
      (main (steps demoEnv) demoEnv demoFlags demoState).args
        = some (lit "proj", lit "example.com/m", lit "t.zip") :=
  ⟨rfl, rfl, rfl,
    main_arguments (steps demoEnv) demoEnv demoFlags demoState rfl rfl (by decide) (by decide)
      (by decide)⟩

/-- C4 fails on the code: when `CreateProject` returns an error, `main` gives the working
directory to `Rollback`, and nothing at or below the working directory is left. -/
theorem main_rollback (P : Steps) (env : Env) (f : Flags) (st : State)
    (hh : f.help = false) (hv : f.version = false)
    (ht : f.templatePath ≠ []) (hp : f.projectName ≠ []) (hm : f.moduleName ≠ [])
    (herr : (CreateProject P env f.projectName f.moduleName f.templatePath st).err ≠ none) :
    (main P env f st).rollback = some env.cwd ∧
      ∀ q, env.cwd <+: q → Stat (main P env f st).st.fs q = none := by
  have ht' : f.templatePath.length ≠ 0 := fun h => ht (List.length_eq_zero.mp h)
  have hp' : f.projectName.length ≠ 0 := fun h => hp (List.length_eq_zero.mp h)
  have hm' : f.moduleName.length ≠ 0 := fun h => hm (List.length_eq_zero.mp h)
  unfold main flagValues
  simp only [hh, hv, ht', hp', hm', Bool.false_eq_true, if_false, or_self]
  cases he : (CreateProject P env f.projectName f.moduleName f.templatePath st).err with
  | none => exact absurd he herr
  | some e =>
    simp only [Rollback, true_and]
    intro q hq
    rw [Stat_RemoveAll]
    simp [hq]

/-- Witness of `main_rollback`: `forge -t t.zip -p proj -m example.com/m` in `/w` gives
`/w` to `Rollback`, not the project root `/w/proj`, and the file `/w/keep.txt`, which is
not below the project root, is removed. -/
theorem main_rollback_witness :
    (main (steps demoEnv) demoEnv demoFlags demoState).rollback = some [lit "w"] ∧
      Join demoEnv.cwd demoFlags.projectName = [lit "w", lit "proj"] ∧
      Stat demoState.fs [lit "w", lit "keep.txt"] = some (Node.file (lit "mine")) ∧
      ¬ [lit "w", lit "proj"] <+: [lit "w", lit "keep.txt"] ∧
      Stat (main (steps demoEnv) demoEnv demoFlags demoState).st.fs [lit "w", lit "keep.txt"]
        = none :=
  have h := main_rollback (steps demoEnv) demoEnv demoFlags demoState rfl rfl (by decide)
    (by decide) (by decide) (by decide)
  ⟨h.1, by decide, by decide, by decide, h.2 _ (by decide)⟩

end Forge
